import Mathlib

/-!
Verification of the tabular schema classification and long-format
normalization engine of the hospital price-transparency repository.

Python strings are modelled as lists of Unicode code points (`List Nat`);
each helper mirrors one function of the source (`wide_to_tall.py`,
`count-tall-wide-csv.py`, `hp_long_loader.py`).  Whitespace is the ASCII
whitespace set; case mapping is the ASCII case mapping (the inputs the
pipeline manipulates are ASCII header names).
-/

namespace Healthcare

/-- A Python string, modelled as its sequence of code points. -/
abbrev S := List Nat

/-- Code points of a Lean string literal, used to write concrete values. -/
def strN (x : String) : S := x.data.map Char.toNat

/-- ASCII whitespace, the characters matched by `str.strip()` and `\s`. -/
def isSpace (c : Nat) : Bool :=
  c == 32 || c == 9 || c == 10 || c == 11 || c == 12 || c == 13

/-- ASCII lower-casing of one code point (`str.lower`). -/
def lowerChar (c : Nat) : Nat := if 65 ≤ c ∧ c ≤ 90 then c + 32 else c

/-- ASCII upper-casing of one code point (`str.upper`). -/
def upperChar (c : Nat) : Nat := if 97 ≤ c ∧ c ≤ 122 then c - 32 else c

/-- `str.strip()`: drop whitespace from both ends. -/
def pyStrip (l : S) : S :=
  ((l.dropWhile isSpace).reverse.dropWhile isSpace).reverse

/-- The dash-to-underscore step of header normalization (`replace("-", "_")`). -/
def dashToUnderscore (c : Nat) : Nat := if c == 45 then 95 else c

/-- Worker for `re.sub(r"\s*\|\s*", "|", c)`: `pend` buffers a whitespace run
whose fate is unknown, `afterPipe` records that a pipe was just emitted so a
following whitespace run is deleted. -/
def pcGo (afterPipe : Bool) (pend : S) : S → S
  | [] => pend
  | c :: rest =>
    if c = 124 then 124 :: pcGo true [] rest
    else if isSpace c then
      (if afterPipe then pcGo true [] rest else pcGo false (pend ++ [c]) rest)
    else pend ++ (c :: pcGo false [] rest)

/-- `re.sub(r"\s*\|\s*", "|", c)`: delete whitespace runs adjacent to pipes. -/
def pipeCollapse (l : S) : S := pcGo false [] l

/-- Worker for `re.sub(r"\s+", " ", c)`: `inRun` records that the current
whitespace run has already emitted its single space. -/
def scGo (inRun : Bool) : S → S
  | [] => []
  | c :: rest =>
    if isSpace c then (if inRun then [] else [32]) ++ scGo true rest
    else c :: scGo false rest

/-- `re.sub(r"\s+", " ", c)`: collapse each whitespace run to one space. -/
def spaceCollapse (l : S) : S := scGo false l

/-- `normalize_header` of `wide_to_tall.py`: strip, lower-case, dashes to
underscores, collapse whitespace around pipes, collapse whitespace runs. -/
def normalize_header (col : S) : S :=
  spaceCollapse (pipeCollapse (((pyStrip col).map lowerChar).map dashToUnderscore))

/-- Fuel-driven worker for `natRepr`; any fuel above the value is enough. -/
def natReprAux : Nat → Nat → S
  | 0, _ => []
  | fuel + 1, n =>
    if n < 10 then [48 + n] else natReprAux fuel (n / 10) ++ [48 + n % 10]

/-- Decimal digits of a natural number (Python `str` of an `int`). -/
def natRepr (n : Nat) : S := natReprAux (n + 1) n

/-- The disambiguation suffix `f"{n}__{k}"` appended by `make_unique`. -/
def tagName (n : S) (k : Nat) : S := n ++ [95, 95] ++ natRepr k

/-- Lookup in the association list modelling the `seen` dict. -/
def alookup (n : S) : List (S × Nat) → Option Nat
  | [] => none
  | (k, v) :: r => if k = n then some v else alookup n r

/-- Update in the association list modelling the `seen` dict. -/
def aupdate (n : S) (v : Nat) : List (S × Nat) → List (S × Nat)
  | [] => [(n, v)]
  | (k, w) :: r => if k = n then (n, v) :: r else (k, w) :: aupdate n v r

/-- Worker for `make_unique`: cols still to process, and the `seen` dict. -/
def makeUniqueGo : List S → List (S × Nat) → List S
  | [], _ => []
  | n :: rest, seen =>
    match alookup n seen with
    | none => n :: makeUniqueGo rest ((n, 0) :: seen)
    | some k => tagName n (k + 1) :: makeUniqueGo rest (aupdate n (k + 1) seen)

/-- `make_unique` of `wide_to_tall.py`: first occurrence kept, later
occurrences suffixed `__1`, `__2`, …. -/
def make_unique (cols : List S) : List S := makeUniqueGo cols []

/-- `base_name` of `wide_to_tall.py`: `name.split("__", 1)[0]`. -/
def base_name : S → S
  | [] => []
  | 95 :: 95 :: _ => []
  | c :: r => c :: base_name r

/-- `c.startswith(p)`. -/
def startsWith (p l : S) : Bool := decide (l.take p.length = p)

/-- `c.split("|", 1)[1]`: everything after the first pipe. -/
def afterFirstPipe : S → S
  | [] => []
  | 124 :: r => r
  | _ :: r => afterFirstPipe r

/-- `PRICE_TYPE_MAP` of `wide_to_tall.py`: suffix or bare alias to price type. -/
def PRICE_TYPE_MAP (k : S) : Option S :=
  if k = strN "gross" then some (strN "chargemaster")
  else if k = strN "gross_charge" then some (strN "chargemaster")
  else if k = strN "gross_charges" then some (strN "chargemaster")
  else if k = strN "discounted_cash" then some (strN "cash")
  else if k = strN "cash" then some (strN "cash")
  else if k = strN "negotiated_dollar" then some (strN "negotiated")
  else if k = strN "negotiated_rate" then some (strN "negotiated")
  else if k = strN "payer_specific" then some (strN "negotiated")
  else if k = strN "contracted_rate" then some (strN "negotiated")
  else if k = strN "allowed_amount" then some (strN "negotiated")
  else if k = strN "percentage" then some (strN "percentage")
  else if k = strN "negotiated_percentage" then some (strN "percentage")
  else if k = strN "min" then some (strN "min")
  else if k = strN "max" then some (strN "max")
  else none

/-- A word character of the regex `\b` boundary (`\w`, ASCII part). -/
def isWordChar (c : Nat) : Bool :=
  decide ((48 ≤ c ∧ c ≤ 57) ∨ (65 ≤ c ∧ c ≤ 90) ∨ (97 ≤ c ∧ c ≤ 122) ∨ c = 95)

/-- A `\b` boundary holds just before position `i` of `l`. -/
def boundaryBefore (l : S) (i : Nat) : Bool :=
  i == 0 || !isWordChar (l.getD (i - 1) 0)

/-- A `\b` boundary holds just after position `j - 1`, i.e. at offset `j`. -/
def boundaryAfter (l : S) (j : Nat) : Bool := !isWordChar (l.getD j 0)

/-- The literal word `kw` occurs at offset `i` of `l`, with `\b` on both sides. -/
def wordAt (l : S) (i : Nat) (kw : S) : Bool :=
  decide ((l.drop i).take kw.length = kw) && boundaryBefore l i &&
    boundaryAfter l (i + kw.length)

/-- `\bpayer(?:[_ ]?specific)?\b` matches at offset `i` of `l`. -/
def payerHit (l : S) (i : Nat) : Bool :=
  boundaryBefore l i && decide ((l.drop i).take 5 = strN "payer") &&
    (boundaryAfter l (i + 5) ||
      (decide ((l.drop (i + 5)).take 9 = strN "_specific") && boundaryAfter l (i + 14)) ||
      (decide ((l.drop (i + 5)).take 9 = strN " specific") && boundaryAfter l (i + 14)) ||
      (decide ((l.drop (i + 5)).take 8 = strN "specific") && boundaryAfter l (i + 13)))

/-- One of the negotiated-price keywords of `parse_price_header`'s heuristic
regex matches at offset `i`. -/
def heurHit (l : S) (i : Nat) : Bool :=
  wordAt l i (strN "negotiated") || payerHit l i ||
    wordAt l i (strN "allowed") || wordAt l i (strN "contracted")

/-- Start offset of the leftmost heuristic-keyword match (`re.search`). -/
def findKeywordStart (l : S) : Option Nat :=
  (List.range l.length).find? (heurHit l)

/-- Worker for `re.sub(r"[_\-|]+", " ", raw)`. -/
def srGo (inRun : Bool) : S → S
  | [] => []
  | c :: rest =>
    if c = 95 ∨ c = 45 ∨ c = 124 then (if inRun then [] else [32]) ++ srGo true rest
    else c :: srGo false rest

/-- `re.sub(r"[_\-|]+", " ", raw)`: separator runs become one space. -/
def sepRunsToSpace (l : S) : S := srGo false l

/-- ASCII letter test used by the title-casing model. -/
def isAlphaChar (c : Nat) : Bool :=
  decide ((65 ≤ c ∧ c ≤ 90) ∨ (97 ≤ c ∧ c ≤ 122))

/-- Worker for `str.title()`; the flag records whether the previous character
was a letter. -/
def titleGo (prevAlpha : Bool) : S → S
  | [] => []
  | c :: rest =>
    (if isAlphaChar c then (if prevAlpha then lowerChar c else upperChar c) else c) ::
      titleGo (isAlphaChar c) rest

/-- `str.title()` (ASCII model). -/
def pyTitle (l : S) : S := titleGo false l

/-- `parse_price_header` of `wide_to_tall.py`: header to
`(price_type?, payer?, plan?)`. -/
def parse_price_header (colname : S) : Option S × Option S × Option S :=
  let c := base_name (normalize_header colname)
  let pt1 : Option S :=
    if startsWith (strN "standard_charge|") c || startsWith (strN "standard charge|") c then
      PRICE_TYPE_MAP (afterFirstPipe c)
    else none
  match pt1 with
  | some pt => (some pt, none, none)
  | none =>
    if c = strN "standard_charge" ∨ c = strN "standard charge" then
      (some (strN "chargemaster"), none, none)
    else
      match PRICE_TYPE_MAP (c.map (fun x => if x = 32 then 95 else x)) with
      | some pt => (some pt, none, none)
      | none =>
        match findKeywordStart c with
        | none => (none, none, none)
        | some i =>
          if (pyStrip (c.take i)).isEmpty then (some (strN "negotiated"), none, none)
          else
            let raw := pyStrip (spaceCollapse (sepRunsToSpace (c.take i)))
            if raw.isEmpty then (some (strN "negotiated"), none, none)
            else (some (strN "negotiated"), some (pyTitle raw), none)

/-- `detect_wide_price_columns`: the columns with a recognized price type. -/
def detect_wide_price_columns (cols : List S) : List (S × S × Option S × Option S) :=
  cols.filterMap (fun c =>
    match parse_price_header c with
    | (some pt, py, pl) => some (c, pt, py, pl)
    | (none, _, _) => none)

/-- ASCII digit test. -/
def isDigit (c : Nat) : Bool := decide (48 ≤ c ∧ c ≤ 57)

/-- Value of a digit string (most significant first). -/
def digitsVal (l : S) : Nat := l.foldl (fun a c => 10 * a + (c - 48)) 0

/-- Strip trailing decimal zeros from the scaled value `n / 10 ^ e`. -/
def reduceDec : Nat → Nat → Nat × Nat
  | n, 0 => (n, 0)
  | n, e + 1 => if n % 10 = 0 then reduceDec (n / 10) e else (n, e + 1)

/-- Digits of `m` left-padded with zeros to width `e`. -/
def padDigits (m e : Nat) : S := List.replicate (e - (natRepr m).length) 48 ++ natRepr m

/-- Render the value `±(n / 10 ^ e)` the way Python `str` renders the float. -/
def fmtFloat (neg : Bool) (n e : Nat) : S :=
  let p := reduceDec n e
  let sign : S := if neg then [45] else []
  if p.2 = 0 then sign ++ natRepr p.1 ++ strN ".0"
  else sign ++ natRepr (p.1 / 10 ^ p.2) ++ [46] ++ padDigits (p.1 % 10 ^ p.2) p.2

/-- `str(float(v))` for plain decimal literals (optional sign, digits, one
optional decimal point).  Exponents, `inf`/`nan` and digit underscores are
outside the modelled input class and map to `none`. -/
def pyFloatRepr (v : S) : Option S :=
  let sn : Bool × S :=
    match v with
    | 43 :: r => (false, r)
    | 45 :: r => (true, r)
    | r => (false, r)
  let intd := sn.2.takeWhile isDigit
  match sn.2.dropWhile isDigit with
  | [] => if intd.isEmpty then none else some (fmtFloat sn.1 (digitsVal intd) 0)
  | 46 :: r2 =>
    let fracd := r2.takeWhile isDigit
    if !(r2.dropWhile isDigit).isEmpty then none
    else if intd.isEmpty && fracd.isEmpty then none
    else some (fmtFloat sn.1 (digitsVal intd * 10 ^ fracd.length + digitsVal fracd) fracd.length)
  | _ => none

/-- `to_numeric` of `wide_to_tall.py`: strip, drop `%` for percentages, parse
as a float and render it back; empty on failure. -/
def to_numeric (val ptype : S) : S :=
  let v := pyStrip val
  if v.isEmpty then []
  else
    let v2 := if ptype = strN "percentage" then v.filter (fun c => c != 37) else v
    match pyFloatRepr v2 with
    | some r => r
    | none => []

/-- `SENTINEL_NULLS` of `hp_long_loader.py`. -/
def SENTINEL_NULLS : List S :=
  [strN "na", strN "n/a", strN "none", strN "null", strN "nan", strN "not disclosed",
   strN "not_disclosed", strN "not available", strN "n.a."]

/-- `SENTINEL_BIG` of `hp_long_loader.py`. -/
def SENTINEL_BIG : List S := [strN "999999999", strN "999999999.0", strN "999999999.00"]

/-- `clean_amount_like` of `hp_long_loader.py` (string inputs). -/
def clean_amount_like (v : S) : Option S :=
  let s := pyStrip v
  if s.isEmpty then none
  else if SENTINEL_NULLS.contains (s.map lowerChar) then none
  else
    let s2 := pyStrip (s.filter (fun c => c != 36 && c != 44))
    if SENTINEL_BIG.contains s2 then none
    else some s

/-- A parsed table: a header row of column names and data rows of cells. -/
structure Table where
  headers : List S
  rows : List (List S)
deriving Repr, DecidableEq

/-- The pricing-header vocabulary test of `maybe_top_metadata`. -/
def hasExpectedHeader (headers : List S) : Bool :=
  headers.any (fun h =>
    let n := normalize_header h
    startsWith (strN "standard_charge") n || n == strN "code" || n == strN "code|1" ||
      n == strN "code|1|type" || n == strN "payer_name" || n == strN "plan_name")

/-- One banner row as a key-value record, empty cells dropped. -/
def mkMetaRow (headers : List S) (row : List S) : List (S × S) :=
  (headers.zip row).filter (fun p => !(pyStrip p.2).isEmpty)

/-- `maybe_top_metadata` of `wide_to_tall.py`: either the table untouched with
no banner, or the table minus its first two rows plus the captured banner. -/
def maybe_top_metadata (t : Table) : Table × List (List (S × S)) :=
  if t.rows.isEmpty || t.headers.isEmpty then (t, [])
  else if hasExpectedHeader t.headers then (t, [])
  else
    let metaRows := ((t.rows.take 2).map (mkMetaRow t.headers)).filter (fun r => !r.isEmpty)
    if metaRows.isEmpty then (t, [])
    else if 2 < t.rows.length then ({ t with rows := t.rows.drop 2 }, metaRows)
    else ({ t with rows := [] }, metaRows)

/-- JSON escaping of one code point (quote and backslash). -/
def jsonEsc (c : Nat) : S := if c = 34 ∨ c = 92 then [92, c] else [c]

/-- A JSON string literal. -/
def jsonStr (s : S) : S := [34] ++ (s.map jsonEsc).flatten ++ [34]

/-- Join with a separator. -/
def intercalateS (sep : S) (l : List S) : S := (List.intersperse sep l).flatten

/-- One banner row as a JSON object. -/
def jsonObj (r : List (S × S)) : S :=
  [123] ++ intercalateS (strN ", ") (r.map (fun p => jsonStr p.1 ++ [58, 32] ++ jsonStr p.2)) ++ [125]

/-- `json.dumps({"header_rows": meta_rows})`. -/
def jsonMeta (rows : List (List (S × S))) : S :=
  [123] ++ jsonStr (strN "header_rows") ++ [58, 32] ++ [91] ++
    intercalateS (strN ", ") (rows.map jsonObj) ++ [93] ++ [125]

/-- `DESC_ALIASES` of `wide_to_tall.py`. -/
def DESC_ALIASES : List S :=
  [strN "description", strN "service_description", strN "procedure_description",
   strN "item_description", strN "long_description", strN "short_description",
   strN "charge_description", strN "standard_charge_description",
   strN "display_description", strN "name", strN "label"]

/-- `first_existing`: first column whose base name is among `names`. -/
def first_existing (cols names : List S) : Option S :=
  cols.find? (fun n => names.contains (base_name n))

/-- Cell lookup in an association list of column values (`row.get(c, "")`). -/
def assocGet (vals : List (S × S)) (k : S) : S :=
  ((vals.find? (fun p => p.1 == k)).map (fun p => p.2)).getD []

/-- `coalesce_first`: first candidate column with a non-blank value, stripped. -/
def coalesce_first (vals : List (S × S)) (cands : List S) : S :=
  match cands.find? (fun c => !(pyStrip (assocGet vals c)).isEmpty) with
  | some c => pyStrip (assocGet vals c)
  | none => []

/-- `norm_type` of `to_tall`: collapse common code-type spellings. -/
def norm_type (t : S) : S :=
  let u := (pyStrip t).map upperChar
  if u = strN "CPT®" ∨ u = strN "CPT-4" ∨ u = strN "CPT4" then strN "CPT"
  else if u = strN "HCPCS" ∨ u = strN "HCPCS-CODE" then strN "HCPCS"
  else if u = strN "DRG" ∨ u = strN "MS-DRG" ∨ u = strN "MSDRG" then strN "DRG"
  else if u = strN "ICD" ∨ u = strN "ICD10" ∨ u = strN "ICD-10" then strN "ICD10"
  else u

/-- One emitted long row of `to_tall` (the final frame's columns). -/
structure TallRow where
  hospital_name : S
  code : S
  code_type : S
  code_2 : S
  code_2_type : S
  price_type : S
  price_amount : S
  payer_name : S
  plan_name : S
  billing_class : S
  currency : S
  effective_date : S
  expires_on : S
  description : S
  modifiers : S
  drug_unit_of_measurement : S
  drug_type_of_measurement : S
  negotiated_algorithm : S
  estimated_amount : S
  methodology : S
  additional_generic_notes : S
  metadata : S
  source_hint : S
deriving Repr, DecidableEq

/-- One intermediate melt record: the id-column values of its data row, the
price column's type and header-embedded payer/plan, and the raw price cell. -/
structure MeltRec where
  idVals : List (S × S)
  ptype : S
  payerH : Option S
  planH : Option S
  raw : S
deriving Repr, DecidableEq

/-- Per-table context threaded to the row builder of `to_tall`. -/
structure MeltCtx where
  hospital : S
  metaJson : S
  codeAny : List S
  typeAny : List S
  colCode2 : Option S
  colCode2Type : Option S
  colPayer : Option S
  colPlan : Option S
  colBclass : Option S
  colCurrency : Option S
  colEffDate : Option S
  colExpDate : Option S
  colDesc : Option S
  colModifiers : Option S
  colDrugUom : Option S
  colDrugType : Option S
  colNegAlgo : Option S
  colMethod : Option S
  colEstAmt : Option S
  colAddNotes : Option S
deriving Repr, DecidableEq

/-- Value of an optionally-present column for one record (`long_df.get`). -/
def optVal (vals : List (S × S)) (oc : Option S) : S :=
  match oc with
  | some c => assocGet vals c
  | none => []

/-- Step 8 of `to_tall`: explicit payer/plan column wins; the header-embedded
value fills in only where the explicit value is empty. -/
def resolve_pref (explicitV : S) (hdr : Option S) : S :=
  if explicitV = [] then hdr.getD [] else explicitV

/-- Assemble one output row of `to_tall` from one melt record. -/
def buildTallRow (ctx : MeltCtx) (r : MeltRec) : TallRow where
  hospital_name := ctx.hospital
  code := coalesce_first r.idVals ctx.codeAny
  code_type := norm_type (coalesce_first r.idVals ctx.typeAny)
  code_2 := optVal r.idVals ctx.colCode2
  code_2_type := optVal r.idVals ctx.colCode2Type
  price_type := r.ptype
  price_amount := to_numeric r.raw r.ptype
  payer_name := resolve_pref (optVal r.idVals ctx.colPayer) r.payerH
  plan_name := resolve_pref (optVal r.idVals ctx.colPlan) r.planH
  billing_class := optVal r.idVals ctx.colBclass
  currency := optVal r.idVals ctx.colCurrency
  effective_date := optVal r.idVals ctx.colEffDate
  expires_on := optVal r.idVals ctx.colExpDate
  description := optVal r.idVals ctx.colDesc
  modifiers := optVal r.idVals ctx.colModifiers
  drug_unit_of_measurement := optVal r.idVals ctx.colDrugUom
  drug_type_of_measurement := optVal r.idVals ctx.colDrugType
  negotiated_algorithm := optVal r.idVals ctx.colNegAlgo
  estimated_amount := optVal r.idVals ctx.colEstAmt
  methodology := optVal r.idVals ctx.colMethod
  additional_generic_notes := optVal r.idVals ctx.colAddNotes
  metadata := ctx.metaJson
  source_hint := strN "wide_to_tall"

/-- Step 11 of `to_tall`: the key fields are stripped in place before the
keep filter runs. -/
def stripKeyFields (r : TallRow) : TallRow :=
  { r with code := pyStrip r.code, code_type := pyStrip r.code_type,
           price_amount := pyStrip r.price_amount }

/-- Keep mask of step 11: code, code_type and price_amount all non-blank. -/
def keepRow (r : TallRow) : Bool :=
  !r.code.isEmpty && !r.code_type.isEmpty && !r.price_amount.isEmpty

/-- Cell of a row under a column name (first matching header position). -/
def getCell (headers row : List S) (name : S) : S :=
  match headers.findIdx? (fun h => h == name) with
  | some i => row.getD i []
  | none => []

/-- Step 5 of `to_tall` (`pd.melt`): one record per price column per data row,
stacked column-by-column as pandas does. -/
def meltRecords (t2 : Table) (idCols : List S)
    (specs : List (S × S × Option S × Option S)) : List MeltRec :=
  specs.flatMap (fun sp =>
    t2.rows.map (fun row =>
      { idVals := idCols.map (fun c => (c, getCell t2.headers row c))
        ptype := sp.2.1
        payerH := sp.2.2.1
        planH := sp.2.2.2
        raw := getCell t2.headers row sp.1 }))

/-- Step 3 of `to_tall`: the id columns, in the source's order. -/
def idColsOf (cols : List S) : List S :=
  ([first_existing cols [strN "code|1", strN "code"],
    first_existing cols [strN "code|1|type", strN "code_type"],
    first_existing cols [strN "code|2"],
    first_existing cols [strN "code|2|type"],
    first_existing cols [strN "payer_name"],
    first_existing cols [strN "plan_name"],
    first_existing cols [strN "billing_class"],
    first_existing cols [strN "setting"],
    first_existing cols [strN "currency"],
    first_existing cols [strN "effective_date", strN "start_date"],
    first_existing cols [strN "expires_on", strN "end_date"],
    first_existing cols DESC_ALIASES,
    first_existing cols [strN "modifiers"],
    first_existing cols [strN "drug_unit_of_measurement"],
    first_existing cols [strN "drug_type_of_measurement"],
    first_existing cols [strN "standard_charge|negotiated_algorithm", strN "negotiated_algorithm"],
    first_existing cols [strN "standard_charge|methodology", strN "methodology"],
    first_existing cols [strN "estimated_amount"],
    first_existing cols [strN "additional_generic_notes"]]).filterMap id

/-- Step 1 of `to_tall`: normalize headers, de-duplicating only when needed. -/
def preprocessHeaders (t : Table) : Table :=
  let h1 := t.headers.map normalize_header
  { t with headers := if h1.Nodup then h1 else make_unique h1 }

/-- The table the melt runs over: headers processed and banner rows removed. -/
def meltSource (t : Table) : Table := (maybe_top_metadata (preprocessHeaders t)).1

/-- The banner rows captured from `t`, if any. -/
def metaRowsOf (t : Table) : List (List (S × S)) :=
  (maybe_top_metadata (preprocessHeaders t)).2

/-- The detected price-fact columns of `t` (step 4 of `to_tall`). -/
def priceSpecsOf (t : Table) : List (S × S × Option S × Option S) :=
  detect_wide_price_columns (meltSource t).headers

/-- Steps 3 and 6-10 of `to_tall` packaged: which columns feed each output
field of one table.  The id-column coalescing candidates (`present`) are
filtered against the melted frame's columns, i.e. the id columns plus
generated helper columns which never carry code-slot names. -/
def meltCtxOf (t : Table) (hospital : S) : MeltCtx :=
  let cols := (meltSource t).headers
  let idCols := idColsOf cols
  let metaRows := metaRowsOf t
  { hospital := hospital
    metaJson := if metaRows.isEmpty then [] else jsonMeta metaRows
    codeAny := [strN "code|1", strN "code|2", strN "code|3", strN "code|4",
                strN "code"].filter (fun n => idCols.contains n)
    typeAny := [strN "code|1|type", strN "code|2|type", strN "code|3|type",
                strN "code|4|type", strN "code_type"].filter (fun n => idCols.contains n)
    colCode2 := first_existing cols [strN "code|2"]
    colCode2Type := first_existing cols [strN "code|2|type"]
    colPayer := first_existing cols [strN "payer_name"]
    colPlan := first_existing cols [strN "plan_name"]
    colBclass := first_existing cols [strN "billing_class"]
    colCurrency := first_existing cols [strN "currency"]
    colEffDate := first_existing cols [strN "effective_date", strN "start_date"]
    colExpDate := first_existing cols [strN "expires_on", strN "end_date"]
    colDesc := first_existing cols DESC_ALIASES
    colModifiers := first_existing cols [strN "modifiers"]
    colDrugUom := first_existing cols [strN "drug_unit_of_measurement"]
    colDrugType := first_existing cols [strN "drug_type_of_measurement"]
    colNegAlgo := first_existing cols [strN "standard_charge|negotiated_algorithm",
                                       strN "negotiated_algorithm"]
    colMethod := first_existing cols [strN "standard_charge|methodology",
                                      strN "methodology"]
    colEstAmt := first_existing cols [strN "estimated_amount"]
    colAddNotes := first_existing cols [strN "additional_generic_notes"] }

/-- The melt records of one table (step 5 of `to_tall` applied to it). -/
def meltRecordsOf (t : Table) : List MeltRec :=
  meltRecords (meltSource t) (idColsOf (meltSource t).headers) (priceSpecsOf t)

/-- `to_tall` of `wide_to_tall.py`: the kept long rows and the dropped count. -/
def to_tall (t : Table) (hospital : S) : List TallRow × Nat :=
  if (priceSpecsOf t).isEmpty then ([], 0)
  else
    let allRows := ((meltRecordsOf t).map (buildTallRow (meltCtxOf t hospital))).map stripKeyFields
    let kept := allRows.filter keepRow
    (kept, allRows.length - kept.length)

/-- One column of a parsed table as the shape classifier sees it: its name,
whether pandas inferred a numeric dtype, its `nunique(dropna=True)` and its
number of `groupby(dropna=False)` groups.  The three data attributes come
from the external reader/pandas layer. -/
structure ColInfo where
  name : S
  numericDtype : Bool
  nunique : Nat
  ngroups : Nat
deriving Repr, DecidableEq

/-- A parsed table as the shape classifier sees it. -/
structure CTable where
  nrows : Nat
  cols : List ColInfo
deriving Repr, DecidableEq

/-- `MIN_WIDE_SUFFIX_GROUP` of `count-tall-wide-csv.py`. -/
def MIN_WIDE_SUFFIX_GROUP : Nat := 3

/-- Two-to-four digits (the year alternative of the suffix regex). -/
def isDigits24 (r : S) : Bool := decide (2 ≤ r.length ∧ r.length ≤ 4) && r.all isDigit

/-- `Q[1-4]`, case-insensitive. -/
def isQuarterTok (r : S) : Bool :=
  match r with
  | [q, d] => (q == 81 || q == 113) && decide (49 ≤ d ∧ d ≤ 52)
  | _ => false

/-- The twelve month abbreviations. -/
def MONTHS : List S :=
  [strN "jan", strN "feb", strN "mar", strN "apr", strN "may", strN "jun",
   strN "jul", strN "aug", strN "sep", strN "oct", strN "nov", strN "dec"]

/-- Month abbreviation, case-insensitive. -/
def isMonthTok (r : S) : Bool := MONTHS.contains (r.map lowerChar)

/-- `(?:0?[1-9]|[12][0-9]|3[01])`: a day-of-month number. -/
def isDayTok (r : S) : Bool :=
  match r with
  | [d] => decide (49 ≤ d ∧ d ≤ 57)
  | [48, d] => decide (49 ≤ d ∧ d ≤ 57)
  | [a, d] => ((a == 49 || a == 50) && isDigit d) || (a == 51 && (d == 48 || d == 49))
  | _ => false

/-- Any alternative of the time/period suffix group. -/
def isSufToken (r : S) : Bool :=
  isDigits24 r || isQuarterTok r || isMonthTok r || isDayTok r

/-- The column-name regex of `detect_wide_by_col_patterns`: lazy base of at
least one character, optional `_`/`-` separator, then a time suffix reaching
the end.  Returns the stripped base group of the leftmost (shortest-base)
match. -/
def sufMatchAt (c : S) (k : Nat) : Bool :=
  decide (1 ≤ k) &&
    ((((c.drop k).headD 0 == 95 || (c.drop k).headD 0 == 45) &&
        isSufToken (c.drop k).tail) ||
      isSufToken (c.drop k))

/-- Base group of the leftmost (shortest-base) match, stripped. -/
def matchTimeSuffix (c : S) : Option S :=
  ((List.range c.length).find? (sufMatchAt c)).map (fun k => pyStrip (c.take k))

/-- Deduplicate keeping first occurrences (dict-insertion order of `groups`). -/
def firstDedup : List S → List S
  | [] => []
  | x :: r => x :: (firstDedup r).filter (fun y => y != x)

/-- The strict-greater maximum scan over the suffix groups. -/
def maxGroupGo : Option S × Nat → List (S × Nat) → Option S × Nat
  | acc, [] => acc
  | acc, g :: rest => maxGroupGo (if acc.2 < g.2 then (some g.1, g.2) else acc) rest

/-- `detect_wide_by_col_patterns`: `(strong, max_group_name, max_group,
groups)`, where each group holds the columns sharing one suffix-stripped
base. -/
def detect_wide_by_col_patterns (names : List S) :
    Bool × Option S × Nat × List (S × Nat) :=
  let bases := firstDedup (names.filterMap matchTimeSuffix)
  let groups := bases.map (fun b =>
    (b, (names.filter (fun c => matchTimeSuffix c == some b)).length))
  if groups.isEmpty then (false, none, 0, [])
  else
    let m := maxGroupGo (none, 0) groups
    (decide (MIN_WIDE_SUFFIX_GROUP ≤ m.2), m.1, m.2, groups)

/-- `detect_wide_by_structure`: numeric-ratio and cols-vs-rows cues.  The
threshold comparisons are the exact rational forms of the source's float
comparisons; the ratio decoration of the reason string is abbreviated. -/
def detect_wide_by_structure (t : CTable) : Bool × Option S :=
  let ncols := t.cols.length
  if ncols = 0 then (false, none)
  else
    let numericCols := (t.cols.filter (fun c => c.numericDtype)).length
    let r1 : Bool := decide (3 * ncols ≤ 5 * numericCols) && decide (8 ≤ ncols)
    let r2 : Bool := decide (20 ≤ ncols) && decide (0 < t.nrows) && decide (t.nrows ≤ 2 * ncols)
    let reasons :=
      (if r1 then [strN "many numeric columns (" ++ natRepr numericCols ++ strN "/" ++
        natRepr ncols ++ strN ")"] else []) ++
      (if r2 then [strN "more columns relative to rows (cols/rows=" ++ natRepr ncols ++
        strN "/" ++ natRepr t.nrows ++ strN ")"] else [])
    if r1 || r2 then (true, some (intercalateS (strN "; ") reasons)) else (false, none)

/-- The value-like column names of `detect_tall_schema`. -/
def VALUE_NAMES : List S :=
  [strN "value", strN "amount", strN "val", strN "measurement", strN "score", strN "reading"]

/-- The variable-like column names of `detect_tall_schema`. -/
def VARIABLE_NAMES : List S :=
  [strN "variable", strN "metric", strN "measure", strN "attribute", strN "feature",
   strN "name", strN "type", strN "category"]

/-- `detect_tall_schema`: the five tall votes; tall when at least two fire.
The average-rows-per-id test `grp.mean() >= 2.0` is the exact rational form
`nrows >= 2 * ngroups` over a non-empty group count. -/
def detect_tall_schema (t : CTable) : Bool × Option S :=
  let nrows := t.nrows
  let ncols := t.cols.length
  if ncols = 0 then (false, none)
  else
    let numericCount := (t.cols.filter (fun c => c.numericDtype)).length
    let hasNamedValue := t.cols.any (fun c => VALUE_NAMES.contains (c.name.map lowerChar))
    let hasNamedVariable := t.cols.any (fun c => VARIABLE_NAMES.contains (c.name.map lowerChar))
    let fewNumeric := numericCount == 1 || decide (numericCount ≤ 2)
    let idCands := t.cols.filter (fun c =>
      !c.numericDtype && decide (0 < nrows) && decide (nrows ≤ 2 * c.nunique))
    let rep := idCands.find? (fun c => decide (0 < c.ngroups) && decide (2 * c.ngroups ≤ nrows))
    let manyRows := decide (ncols * 5 < nrows) && decide (100 ≤ nrows)
    let votes : Nat := (if hasNamedValue then 1 else 0) + (if hasNamedVariable then 1 else 0) +
      (if fewNumeric then 1 else 0) + (if rep.isSome then 1 else 0) +
      (if manyRows then 1 else 0)
    let reasons :=
      (if hasNamedValue then [strN "found " ++ [39] ++ strN "value-like" ++ [39] ++
        strN " column name"] else []) ++
      (if hasNamedVariable then [strN "found " ++ [39] ++ strN "variable/metric" ++ [39] ++
        strN " column name"] else []) ++
      (if fewNumeric then [strN "one/few numeric measure columns"] else []) ++
      (match rep with
       | some c => [strN "repeated IDs: avg >= 2 rows per " ++ [39] ++ c.name ++ [39]]
       | none => []) ++
      (if manyRows then [strN "rows >> cols (" ++ natRepr nrows ++ strN " >> " ++
        natRepr ncols ++ strN ")"] else [])
    (decide (2 ≤ votes), if reasons.isEmpty then none else some (intercalateS (strN "; ") reasons))

/-- `fallback_shape`: classify by raw shape. -/
def fallback_shape (t : CTable) : S × S :=
  if t.cols.length < t.nrows then
    (strN "tall", strN "fallback: rows>cols (" ++ natRepr t.nrows ++ strN ">" ++
      natRepr t.cols.length ++ strN ")")
  else
    (strN "wide", strN "fallback: cols>=rows (" ++ natRepr t.cols.length ++ strN ">=" ++
      natRepr t.nrows ++ strN ")")

/-- `classify` of `count-tall-wide-csv.py`: the ordered detector cascade. -/
def classify (t : CTable) : S × S :=
  if t.nrows = 0 ∨ t.cols.length = 0 then (strN "unknown", strN "empty/degenerate data frame")
  else
    let wp := detect_wide_by_col_patterns (t.cols.map (fun c => c.name))
    if wp.1 then
      (strN "wide", strN "wide: " ++ natRepr wp.2.2.1 ++ strN " columns share base " ++
        [39] ++ (wp.2.1.getD []) ++ [39] ++ strN " with time/index suffixes")
    else
      let ws := detect_wide_by_structure t
      if ws.1 then (strN "wide", strN "wide: " ++ ws.2.getD [])
      else
        let ts := detect_tall_schema t
        if ts.1 then (strN "tall", strN "tall: " ++ ts.2.getD [])
        else fallback_shape t

/-- The synthetic wide table of the round-trip property. -/
def roundTripTable : Table where
  headers := [strN "code|1", strN "code|1|type", strN "payer_name", strN "plan_name",
              strN "standard_charge|gross", strN "standard_charge|discounted_cash"]
  rows := [[strN "99213", strN "CPT", strN "Aetna", strN "PPO", strN "100.00", strN "80.00"]]

/-- A minimal wide table whose only price cell is the absurd sentinel. -/
def sentinelBigTable : Table where
  headers := [strN "code|1", strN "code|1|type", strN "standard_charge|gross"]
  rows := [[strN "99213", strN "CPT", strN "999999999"]]

/-- A minimal wide table whose only price cell is `"N/A"`. -/
def sentinelNaTable : Table where
  headers := [strN "code|1", strN "code|1|type", strN "standard_charge|gross"]
  rows := [[strN "99213", strN "CPT", strN "N/A"]]

/-- The three-column revenue table of the wide-pattern grouping property. -/
def revenueTable : CTable where
  nrows := 1
  cols := [{ name := strN "revenue_2019", numericDtype := false, nunique := 1, ngroups := 1 },
           { name := strN "revenue_2020", numericDtype := false, nunique := 1, ngroups := 1 },
           { name := strN "revenue_2021", numericDtype := false, nunique := 1, ngroups := 1 }]

/-- No whitespace at the front. -/
def headNotWs (l : S) : Prop := ∀ c ∈ l.head?, isSpace c = false

/-- No whitespace at the back. -/
def lastNotWs (l : S) : Prop := ∀ c ∈ l.getLast?, isSpace c = false

/-- Every character is lower-case-stable and no dash remains. -/
def lowerFixed (l : S) : Prop := ∀ c ∈ l, lowerChar c = c ∧ c ≠ 45

/-- Every whitespace character is a plain space. -/
def wsOnly32 (l : S) : Prop := ∀ c ∈ l, isSpace c = true → c = 32

/-- No whitespace sits against a pipe. -/
def Ppipe (a b : Nat) : Prop := ¬(isSpace a = true ∧ b = 124) ∧ ¬(a = 124 ∧ isSpace b = true)

/-- No two adjacent whitespace characters. -/
def Pws (a b : Nat) : Prop := ¬(isSpace a = true ∧ isSpace b = true)

/-- The canonical form produced by `normalize_header`. -/
def NormalizedForm (l : S) : Prop :=
  lowerFixed l ∧ wsOnly32 l ∧ List.Chain' Ppipe l ∧ List.Chain' Pws l ∧
    headNotWs l ∧ lastNotWs l

/-- The `__` separator occurs in the name. -/
def hasDU : S → Bool
  | [] => false
  | [_] => false
  | a :: b :: r => (a == 95 && b == 95) || hasDU (b :: r)

/-- Specification form of `make_unique`: `prior n` counts how often `n` was
already seen (dict entry plus one when present). -/
def muSpec : List S → (S → Nat) → List S
  | [], _ => []
  | n :: rest, prior =>
    (if prior n = 0 then n else tagName n (prior n)) ::
      muSpec rest (fun m => if m = n then prior n + 1 else prior m)

/-- The occurrence count the `seen` dict encodes for a name. -/
def priorOf (seen : List (S × Nat)) (n : S) : Nat :=
  match alookup n seen with
  | none => 0
  | some v => v + 1

/-- The first melt record of the synthetic round-trip table. -/
def recC6 : MeltRec :=
  (meltRecordsOf roundTripTable).headD
    { idVals := [], ptype := [], payerH := none, planH := none, raw := [] }

/-- The melt fans out one record per price column per data row. -/
theorem meltRecords_length (t2 : Table) (idCols : List S)
    (specs : List (S × S × Option S × Option S)) :
    (meltRecords t2 idCols specs).length = specs.length * t2.rows.length := by
  induction specs with
  | nil => simp [meltRecords]
  | cons sp rest ih =>
    simp only [meltRecords, List.flatMap_cons, List.length_append, List.length_map,
      List.length_cons] at ih ⊢
    rw [ih, Nat.succ_mul]
    omega

/-- Kept rows plus dropped rows account for every melt record. -/
theorem to_tall_conservation (t : Table) (hospital : S) :
    (to_tall t hospital).1.length + (to_tall t hospital).2 =
      (meltSource t).rows.length * (priceSpecsOf t).length := by
  unfold to_tall
  by_cases h : (priceSpecsOf t).isEmpty = true
  · rw [if_pos h]
    rw [List.isEmpty_iff] at h
    simp [h]
  · rw [if_neg h]
    dsimp only
    have hA : (((meltRecordsOf t).map (buildTallRow (meltCtxOf t hospital))).map
        stripKeyFields).length = (meltSource t).rows.length * (priceSpecsOf t).length := by
      simp [meltRecordsOf, meltRecords_length, Nat.mul_comm]
    have hle := List.length_filter_le keepRow
      (((meltRecordsOf t).map (buildTallRow (meltCtxOf t hospital))).map stripKeyFields)
    omega

/-- C1: on the synthetic wide table with columns `code|1, code|1|type,
payer_name, plan_name, standard_charge|gross, standard_charge|discounted_cash`
and the single data row `("99213","CPT","Aetna","PPO","100.00","80.00")`,
`to_tall` produces exactly two long rows, one `chargemaster` at `100.0` and
one `cash` at `80.0`, both carrying code `99213`, code type `CPT`, payer
`Aetna` and plan `PPO`, with nothing dropped. -/
theorem claim_C1 :
    (to_tall roundTripTable (strN "General Hospital")).1.length = 2 ∧
    (to_tall roundTripTable (strN "General Hospital")).2 = 0 ∧
    (to_tall roundTripTable (strN "General Hospital")).1.map (fun r => r.price_type) =
      [strN "chargemaster", strN "cash"] ∧
    (to_tall roundTripTable (strN "General Hospital")).1.map (fun r => r.price_amount) =
      [strN "100.0", strN "80.0"] ∧
    (to_tall roundTripTable (strN "General Hospital")).1.map (fun r => r.code) =
      [strN "99213", strN "99213"] ∧
    (to_tall roundTripTable (strN "General Hospital")).1.map (fun r => r.code_type) =
      [strN "CPT", strN "CPT"] ∧
    (to_tall roundTripTable (strN "General Hospital")).1.map (fun r => r.payer_name) =
      [strN "Aetna", strN "Aetna"] ∧
    (to_tall roundTripTable (strN "General Hospital")).1.map (fun r => r.plan_name) =
      [strN "PPO", strN "PPO"] := by decide

/-- C2: for every input table, the number of emitted long rows plus the
dropped count equals the number of data rows times the number of detected
price-fact columns, and emitted rows reach that product exactly when nothing
was dropped. -/
theorem claim_C2 (t : Table) (hospital : S) :
    (to_tall t hospital).1.length + (to_tall t hospital).2 =
      (meltSource t).rows.length * (priceSpecsOf t).length ∧
    ((to_tall t hospital).1.length =
        (meltSource t).rows.length * (priceSpecsOf t).length ↔
      (to_tall t hospital).2 = 0) := by
  have key := to_tall_conservation t hospital
  exact ⟨key, by omega⟩

/-- C3 counterexample: a raw price cell `"999999999"` is not treated as
missing by the melt engine — the record is kept (dropped count 0) and its
cleaned amount is `"999999999.0"`, not empty. -/
theorem counterexample_C3 :
    (to_tall sentinelBigTable (strN "Hosp")).2 = 0 ∧
    (to_tall sentinelBigTable (strN "Hosp")).1.map (fun r => r.price_amount) =
      [strN "999999999.0"] := by decide

/-- C3 (amended): a raw price cell of `"N/A"` cleans to empty under the melt
engine's `to_numeric` (for every price type) and the record is dropped,
incrementing the dropped count; the numeric sentinel `"999999999"` (and
`"N/A"`, case-insensitively) is nulled by the long loader's
`clean_amount_like`, while the melt engine keeps it (see the
counterexample). -/
theorem claim_C3 :
    (∀ ptype : S, to_numeric (strN "N/A") ptype = []) ∧
    to_tall sentinelNaTable (strN "Hosp") = ([], 1) ∧
    clean_amount_like (strN "999999999") = none ∧
    clean_amount_like (strN "N/A") = none ∧
    clean_amount_like (strN "n/a") = none := by
  refine ⟨?_, by decide, by decide, by decide, by decide⟩
  intro ptype
  by_cases h : ptype = strN "percentage"
  · subst h; decide
  · simp only [to_numeric, if_neg h]
    decide

/-- The classifier always decides tall or wide on a non-degenerate table. -/
theorem classify_total (t : CTable) (h : ¬(t.nrows = 0 ∨ t.cols.length = 0)) :
    (classify t).1 = strN "tall" ∨ (classify t).1 = strN "wide" := by
  unfold classify
  rw [if_neg h]
  dsimp only
  by_cases h1 : (detect_wide_by_col_patterns (t.cols.map (fun c => c.name))).1 = true
  · rw [if_pos h1]; right; rfl
  · rw [if_neg h1]
    by_cases h2 : (detect_wide_by_structure t).1 = true
    · rw [if_pos h2]; right; rfl
    · rw [if_neg h2]
      by_cases h3 : (detect_tall_schema t).1 = true
      · rw [if_pos h3]; left; rfl
      · rw [if_neg h3]
        unfold fallback_shape
        by_cases h4 : t.cols.length < t.nrows
        · rw [if_pos h4]; left; rfl
        · rw [if_neg h4]; right; rfl

/-- C10: `classify` answers `unknown` exactly on degenerate tables (zero rows
or zero columns); any table with at least one row and one column is decided
`tall` or `wide`. -/
theorem claim_C10 (t : CTable) :
    ((classify t).1 = strN "unknown" ↔ (t.nrows = 0 ∨ t.cols.length = 0)) ∧
    (0 < t.nrows → 0 < t.cols.length →
      ((classify t).1 = strN "tall" ∨ (classify t).1 = strN "wide")) := by
  by_cases h : t.nrows = 0 ∨ t.cols.length = 0
  · refine ⟨⟨fun _ => h, fun _ => ?_⟩, fun h1 h2 => ?_⟩
    · unfold classify; rw [if_pos h]
    · rcases h with h | h <;> omega
  · have htw := classify_total t h
    refine ⟨⟨fun hu => ?_, fun hd => absurd hd h⟩, fun _ _ => htw⟩
    rcases htw with h1 | h1 <;> rw [h1] at hu <;> exact absurd hu (by decide)

/-- C10 witness: the concrete revenue table is decided tall or wide. -/
theorem claim_C10_witness :
    (classify revenueTable).1 = strN "tall" ∨ (classify revenueTable).1 = strN "wide" :=
  (claim_C10 revenueTable).2 (by decide) (by decide)

/-- C5 counterexample: a `standard_charge|<suffix>` column with an
unrecognized suffix is left unassigned — `parse_price_header` reports no
price type and the column is excluded from the detected price columns,
instead of defaulting to chargemaster. -/
theorem counterexample_C5 :
    parse_price_header (strN "standard_charge|foo") = (none, none, none) ∧
    detect_wide_price_columns [strN "standard_charge|foo"] = [] := by decide

/-- Starting-with-the-same-list prefixes always test true. -/
theorem startsWith_append (p x : S) : startsWith p (p ++ x) = true := by
  unfold startsWith
  rw [List.take_left]
  simp

/-- No entry of the price-type table begins with the letter `s`. -/
theorem PRICE_TYPE_MAP_s (r : S) : PRICE_TYPE_MAP (115 :: r) = none := by
  simp [PRICE_TYPE_MAP, strN]

/-- C5 (amended): a canonical `standard_charge|<suffix>` column whose suffix
is outside the price-kind table is left unassigned (no price type at all)
unless the negotiated/payer/allowed/contracted heuristic fires; only the bare
`standard_charge` name (no pipe) defaults to chargemaster. -/
theorem claim_C5 (sfx : S)
    (hcanon : base_name (normalize_header (strN "standard_charge|" ++ sfx)) =
      strN "standard_charge|" ++ sfx)
    (hmap : PRICE_TYPE_MAP sfx = none)
    (hheur : findKeywordStart (strN "standard_charge|" ++ sfx) = none) :
    parse_price_header (strN "standard_charge|" ++ sfx) = (none, none, none) := by
  unfold parse_price_header
  dsimp only
  rw [hcanon]
  have hstart : startsWith (strN "standard_charge|") (strN "standard_charge|" ++ sfx) = true :=
    startsWith_append _ _
  rw [hstart, Bool.true_or, if_pos rfl]
  have hap : afterFirstPipe (strN "standard_charge|" ++ sfx) = sfx := rfl
  rw [hap, hmap]
  have hne : ¬(strN "standard_charge|" ++ sfx = strN "standard_charge" ∨
      strN "standard_charge|" ++ sfx = strN "standard charge") := by
    rintro (h | h) <;>
      · have hl := congrArg List.length h
        simp [strN] at hl
  rw [if_neg hne]
  have hmap2 : PRICE_TYPE_MAP ((strN "standard_charge|" ++ sfx).map
      (fun x => if x = 32 then 95 else x)) = none := by
    rw [List.map_append]
    have h0 : (strN "standard_charge|").map (fun x => if x = 32 then 95 else x) =
        strN "standard_charge|" := by decide
    rw [h0]
    exact PRICE_TYPE_MAP_s _
  rw [hmap2, hheur]

/-- C5 witness: the amended claim applies to the suffix `foo`. -/
theorem claim_C5_witness :
    parse_price_header (strN "standard_charge|" ++ strN "foo") = (none, none, none) :=
  claim_C5 (strN "foo") (by decide) (by decide) (by decide)

/-- C6: on every melt record, the resolved payer (and plan) is the explicit
`payer_name`/`plan_name` column value whenever that value is non-blank, and
the header-embedded value is used only when the explicit column is absent or
blank for the row (`optVal` is empty in both cases). -/
theorem claim_C6 (t : Table) (hospital : S) :
    ∀ r ∈ meltRecordsOf t,
      ((optVal r.idVals (meltCtxOf t hospital).colPayer ≠ [] →
        (buildTallRow (meltCtxOf t hospital) r).payer_name =
          optVal r.idVals (meltCtxOf t hospital).colPayer) ∧
       (optVal r.idVals (meltCtxOf t hospital).colPayer = [] →
        (buildTallRow (meltCtxOf t hospital) r).payer_name = r.payerH.getD [])) ∧
      ((optVal r.idVals (meltCtxOf t hospital).colPlan ≠ [] →
        (buildTallRow (meltCtxOf t hospital) r).plan_name =
          optVal r.idVals (meltCtxOf t hospital).colPlan) ∧
       (optVal r.idVals (meltCtxOf t hospital).colPlan = [] →
        (buildTallRow (meltCtxOf t hospital) r).plan_name = r.planH.getD [])) := by
  intro r _
  refine ⟨⟨fun h => ?_, fun h => ?_⟩, ⟨fun h => ?_, fun h => ?_⟩⟩ <;>
    simp only [buildTallRow, resolve_pref] <;>
    [rw [if_neg h]; rw [if_pos h]; rw [if_neg h]; rw [if_pos h]]

/-- C6 witness: on the round-trip table's first record, the explicit payer
column value `Aetna` wins. -/
theorem claim_C6_witness :
    recC6 ∈ meltRecordsOf roundTripTable ∧
    (buildTallRow (meltCtxOf roundTripTable (strN "Hosp")) recC6).payer_name = strN "Aetna" :=
  ⟨by decide,
    ((claim_C6 roundTripTable (strN "Hosp") recC6 (by decide)).1.1 (by decide)).trans (by decide)⟩

/-- C7: banner detection leaves a table with a pricing-vocabulary header
untouched with an empty blob, and on a table with fewer than two rows it is
total and captures only rows that exist (the blob is a sublist of the
per-row captures, and no rows are invented). -/
theorem claim_C7 :
    (∀ t : Table, hasExpectedHeader t.headers = true → maybe_top_metadata t = (t, [])) ∧
    (∀ t : Table, t.rows.length < 2 →
      ((maybe_top_metadata t).2.Sublist
        ((t.rows.map (mkMetaRow t.headers)).filter (fun r => !r.isEmpty)) ∧
       (maybe_top_metadata t).1.rows.Sublist t.rows)) := by
  constructor
  · intro t h
    unfold maybe_top_metadata
    by_cases hd : (t.rows.isEmpty || t.headers.isEmpty) = true
    · rw [if_pos hd]
    · rw [if_neg hd, if_pos h]
  · intro t hlt
    unfold maybe_top_metadata
    by_cases hd : (t.rows.isEmpty || t.headers.isEmpty) = true
    · rw [if_pos hd]; exact ⟨List.nil_sublist _, List.Sublist.refl _⟩
    · rw [if_neg hd]
      by_cases he : hasExpectedHeader t.headers = true
      · rw [if_pos he]; exact ⟨List.nil_sublist _, List.Sublist.refl _⟩
      · rw [if_neg he]
        dsimp only
        have htake : t.rows.take 2 = t.rows := List.take_of_length_le (by omega)
        by_cases hm : (((t.rows.take 2).map (mkMetaRow t.headers)).filter
            (fun r => !r.isEmpty)).isEmpty = true
        · rw [if_pos hm]; exact ⟨List.nil_sublist _, List.Sublist.refl _⟩
        · rw [if_neg hm, if_neg (by omega : ¬ 2 < t.rows.length)]
          constructor
          · rw [htake]
          · exact List.nil_sublist _

/-- C7 witness: the round-trip table has a pricing header and is returned
untouched; the one-row sentinel table is handled without error. -/
theorem claim_C7_witness :
    maybe_top_metadata roundTripTable = (roundTripTable, []) ∧
    ((maybe_top_metadata sentinelNaTable).2.Sublist
      ((sentinelNaTable.rows.map (mkMetaRow sentinelNaTable.headers)).filter
        (fun r => !r.isEmpty)) ∧
     (maybe_top_metadata sentinelNaTable).1.rows.Sublist sentinelNaTable.rows) :=
  ⟨claim_C7.1 roundTripTable (by decide), claim_C7.2 sentinelNaTable (by decide)⟩

/-- Membership is unchanged by first-occurrence deduplication. -/
theorem mem_firstDedup {x : S} : ∀ {l : List S}, x ∈ firstDedup l ↔ x ∈ l := by
  intro l
  induction l with
  | nil => simp [firstDedup]
  | cons y r ih =>
    simp only [firstDedup, List.mem_cons, List.mem_filter]
    constructor
    · rintro (h | ⟨h, _⟩)
      · exact Or.inl h
      · exact Or.inr (ih.mp h)
    · rintro (h | h)
      · exact Or.inl h
      · by_cases hxy : x = y
        · exact Or.inl hxy
        · exact Or.inr ⟨ih.mpr h, by simp [bne_iff_ne, hxy]⟩

/-- The strict-greater scan dominates its accumulator and every group size. -/
theorem maxGroupGo_le (gs : List (S × Nat)) : ∀ acc : Option S × Nat,
    acc.2 ≤ (maxGroupGo acc gs).2 ∧ ∀ g ∈ gs, g.2 ≤ (maxGroupGo acc gs).2 := by
  induction gs with
  | nil =>
    intro acc
    refine ⟨Nat.le_refl _, fun g hg => absurd hg (List.not_mem_nil g)⟩
  | cons g rest ih =>
    intro acc
    simp only [maxGroupGo]
    have hstep : acc.2 ≤ (if acc.2 < g.2 then (some g.1, g.2) else acc).2 ∧
        g.2 ≤ (if acc.2 < g.2 then (some g.1, g.2) else acc).2 := by
      by_cases hc : acc.2 < g.2
      · rw [if_pos hc]; exact ⟨Nat.le_of_lt hc, Nat.le_refl _⟩
      · rw [if_neg hc]; exact ⟨Nat.le_refl _, by omega⟩
    have hr := ih (if acc.2 < g.2 then (some g.1, g.2) else acc)
    refine ⟨Nat.le_trans hstep.1 hr.1, fun g' hg' => ?_⟩
    rcases List.mem_cons.mp hg' with h | h
    · subst h; exact Nat.le_trans hstep.2 hr.1
    · exact hr.2 g' h

/-- Three distinct members that pass a filter force its length to three. -/
theorem three_mem_filter_length {p : S → Bool} {l : List S} {a b c : S}
    (ha : a ∈ l) (hb : b ∈ l) (hc : c ∈ l)
    (hpa : p a = true) (hpb : p b = true) (hpc : p c = true)
    (hab : a ≠ b) (hac : a ≠ c) (hbc : b ≠ c) : 3 ≤ (l.filter p).length := by
  have hsub : [a, b, c] ⊆ l.filter p := by
    intro x hx
    simp only [List.mem_cons, List.not_mem_nil, or_false] at hx
    rcases hx with rfl | rfl | rfl <;> exact List.mem_filter.mpr ⟨by assumption, by assumption⟩
  have hnd : ([a, b, c] : List S).Nodup := by simp [hab, hac, hbc]
  simpa using (hnd.subperm hsub).length_le

/-- C8: any non-degenerate table whose columns include `revenue_2019`,
`revenue_2020` and `revenue_2021` is classified Wide by the pattern detector
(the `revenue` group reaches the minimum size 3), and on exactly those three
columns the reason cites the base `revenue` and size 3. -/
theorem claim_C8 :
    (∀ t : CTable, 0 < t.nrows →
      strN "revenue_2019" ∈ t.cols.map (fun c => c.name) →
      strN "revenue_2020" ∈ t.cols.map (fun c => c.name) →
      strN "revenue_2021" ∈ t.cols.map (fun c => c.name) →
      (classify t).1 = strN "wide") ∧
    classify revenueTable = (strN "wide",
      strN "wide: 3 columns share base " ++ [39] ++ strN "revenue" ++ [39] ++
        strN " with time/index suffixes") := by
  refine ⟨?_, by decide⟩
  intro t hn h19 h20 h21
  have hc0 : 0 < t.cols.length := by
    have := List.length_pos_of_mem h19
    simpa using this
  have hflen : 3 ≤ ((t.cols.map (fun c => c.name)).filter
      (fun c => matchTimeSuffix c == some (strN "revenue"))).length := by
    refine three_mem_filter_length h19 h20 h21 ?_ ?_ ?_ ?_ ?_ ?_ <;> decide
  have hbase : strN "revenue" ∈
      firstDedup ((t.cols.map (fun c => c.name)).filterMap matchTimeSuffix) := by
    rw [mem_firstDedup]
    exact List.mem_filterMap.mpr ⟨strN "revenue_2019", h19, by decide⟩
  have hgmem : (strN "revenue", ((t.cols.map (fun c => c.name)).filter
      (fun c => matchTimeSuffix c == some (strN "revenue"))).length) ∈
      (firstDedup ((t.cols.map (fun c => c.name)).filterMap matchTimeSuffix)).map
        (fun b => (b, ((t.cols.map (fun c => c.name)).filter
          (fun c => matchTimeSuffix c == some b)).length)) :=
    List.mem_map.mpr ⟨strN "revenue", hbase, rfl⟩
  have hmax := (maxGroupGo_le ((firstDedup ((t.cols.map (fun c => c.name)).filterMap
      matchTimeSuffix)).map (fun b => (b, ((t.cols.map (fun c => c.name)).filter
      (fun c => matchTimeSuffix c == some b)).length))) (none, 0)).2 _ hgmem
  have hdet : (detect_wide_by_col_patterns (t.cols.map (fun c => c.name))).1 = true := by
    unfold detect_wide_by_col_patterns
    dsimp only
    rw [if_neg (fun hcontra => List.ne_nil_of_mem hgmem (List.isEmpty_iff.mp hcontra))]
    simp only [decide_eq_true_eq]
    exact Nat.le_trans hflen hmax
  unfold classify
  rw [if_neg (by omega)]
  dsimp only
  rw [if_pos hdet]

/-- C8 witness: the general part applied to the concrete revenue table. -/
theorem claim_C8_witness : (classify revenueTable).1 = strN "wide" :=
  claim_C8.1 revenueTable (by decide) (by decide) (by decide) (by decide)

/-- Any sufficient fuel yields the same decimal digits. -/
theorem natReprAux_fuel : ∀ (n f₁ f₂ : Nat), n < f₁ → n < f₂ →
    natReprAux f₁ n = natReprAux f₂ n := by
  intro n
  induction n using Nat.strong_induction_on with
  | _ n ih =>
    intro f₁ f₂ h₁ h₂
    obtain ⟨g₁, rfl⟩ : ∃ k, f₁ = k + 1 := ⟨f₁ - 1, by omega⟩
    obtain ⟨g₂, rfl⟩ : ∃ k, f₂ = k + 1 := ⟨f₂ - 1, by omega⟩
    by_cases h10 : n < 10
    · simp [natReprAux, if_pos h10]
    · simp only [natReprAux, if_neg h10]
      have hlt : n / 10 < n := Nat.div_lt_self (by omega) (by omega)
      rw [ih (n / 10) hlt g₁ g₂ (by omega) (by omega)]

/-- Fuel above the value computes `natRepr`. -/
theorem natReprAux_eq_natRepr (f n : Nat) (h : n < f) : natReprAux f n = natRepr n :=
  natReprAux_fuel n f (n + 1) h (Nat.lt_succ_self n)

/-- Decimal digits stay in the digit range. -/
theorem natReprAux_digits : ∀ (f n : Nat), n < f → ∀ c ∈ natReprAux f n, 48 ≤ c ∧ c ≤ 57 := by
  intro f
  induction f with
  | zero => intro n h; omega
  | succ g ih =>
    intro n h c hc
    by_cases h10 : n < 10
    · simp only [natReprAux, if_pos h10, List.mem_singleton] at hc
      omega
    · simp only [natReprAux, if_neg h10, List.mem_append, List.mem_singleton] at hc
      rcases hc with hc | hc
      · exact ih (n / 10) (by
          have := Nat.div_lt_self (show 0 < n by omega) (show 1 < 10 by omega)
          omega) c hc
      · have := Nat.mod_lt n (show 0 < 10 by omega)
        omega

/-- Decimal digits of a value are in the digit range. -/
theorem natRepr_digits (n : Nat) : ∀ c ∈ natRepr n, 48 ≤ c ∧ c ≤ 57 :=
  natReprAux_digits (n + 1) n (Nat.lt_succ_self n)

/-- The digit list is never empty. -/
theorem natReprAux_ne_nil (f n : Nat) (h : n < f) : natReprAux f n ≠ [] := by
  obtain ⟨g, rfl⟩ : ∃ k, f = k + 1 := ⟨f - 1, by omega⟩
  by_cases h10 : n < 10
  · simp [natReprAux, if_pos h10]
  · simp [natReprAux, if_neg h10]

/-- Decimal printing of naturals is injective. -/
theorem natRepr_inj : ∀ (a b : Nat), natRepr a = natRepr b → a = b := by
  intro a
  induction a using Nat.strong_induction_on with
  | _ a ih =>
    intro b h
    unfold natRepr at h
    by_cases ha : a < 10 <;> by_cases hb : b < 10
    · simp only [natReprAux, if_pos ha, if_pos hb, List.cons.injEq] at h
      omega
    · simp only [natReprAux, if_pos ha, if_neg hb] at h
      have hlen := congrArg List.length h
      have hne : natReprAux b (b / 10) ≠ [] :=
        natReprAux_ne_nil b (b / 10) (Nat.div_lt_self (by omega) (by omega))
      have hpos : 0 < (natReprAux b (b / 10)).length := List.length_pos.mpr hne
      simp only [List.length_singleton, List.length_append] at hlen
      omega
    · simp only [natReprAux, if_neg ha, if_pos hb] at h
      have hlen := congrArg List.length h
      have hne : natReprAux a (a / 10) ≠ [] :=
        natReprAux_ne_nil a (a / 10) (Nat.div_lt_self (by omega) (by omega))
      have hpos : 0 < (natReprAux a (a / 10)).length := List.length_pos.mpr hne
      simp only [List.length_singleton, List.length_append] at hlen
      omega
    · simp only [natReprAux, if_neg ha, if_neg hb] at h
      have h1 := congrArg List.getLast? h
      rw [List.getLast?_concat, List.getLast?_concat] at h1
      have h2 := congrArg List.dropLast h
      rw [List.dropLast_concat, List.dropLast_concat] at h2
      have hlt : a / 10 < a := Nat.div_lt_self (by omega) (by omega)
      rw [natReprAux_eq_natRepr a (a / 10) hlt,
        natReprAux_eq_natRepr b (b / 10) (Nat.div_lt_self (by omega) (by omega))] at h2
      have hdiv := ih (a / 10) hlt (b / 10) h2
      have hmod : 48 + a % 10 = 48 + b % 10 := Option.some.inj h1
      omega

/-- A `__` right after any prefix is found by `hasDU`. -/
theorem hasDU_append95 : ∀ (n d : S), hasDU (n ++ 95 :: 95 :: d) = true := by
  intro n d
  induction n with
  | nil => simp [hasDU]
  | cons c n' ih =>
    cases n' with
    | nil => simp [hasDU]
    | cons c2 n'' =>
      have ih' : hasDU (c2 :: (n'' ++ 95 :: 95 :: d)) = true := by
        simpa using ih
      simp [List.cons_append, hasDU, List.append_eq, ih']

/-- The tagged name always contains the separator. -/
theorem tagName_hasDU (n : S) (k : Nat) : hasDU (tagName n k) = true := by
  unfold tagName
  rw [List.append_assoc]
  exact hasDU_append95 n (natRepr k)

/-- A run of passing elements commutes with `takeWhile` over an append. -/
theorem takeWhile_all_append (p : Nat → Bool) (xs ys : S) (h : ∀ x ∈ xs, p x = true) :
    (xs ++ ys).takeWhile p = xs ++ ys.takeWhile p := by
  induction xs with
  | nil => simp
  | cons x xs' ih =>
    have hx : p x = true := h x (List.mem_cons_self x xs')
    simp [List.takeWhile_cons, hx, ih (fun y hy => h y (List.mem_cons_of_mem x hy))]

/-- The digit suffix of a tagged name can be read back off its reverse. -/
theorem tagName_suffix_digits (n d : S) (hd : ∀ c ∈ d, (c != 95) = true) :
    ((n ++ [95, 95] ++ d).reverse.takeWhile (fun c => c != 95)) = d.reverse := by
  rw [List.append_assoc, List.reverse_append, List.reverse_append, List.append_assoc]
  rw [takeWhile_all_append _ _ _ (fun x hx => hd x (List.mem_reverse.mp hx))]
  simp [List.takeWhile]

/-- Tagging is injective: base and counter are both recoverable. -/
theorem tagName_inj {n₁ n₂ : S} {k₁ k₂ : Nat} (h : tagName n₁ k₁ = tagName n₂ k₂) :
    n₁ = n₂ ∧ k₁ = k₂ := by
  have hd₁ : ∀ c ∈ natRepr k₁, (c != 95) = true := by
    intro c hc
    have := natRepr_digits k₁ c hc
    simp only [bne_iff_ne, ne_eq]
    omega
  have hd₂ : ∀ c ∈ natRepr k₂, (c != 95) = true := by
    intro c hc
    have := natRepr_digits k₂ c hc
    simp only [bne_iff_ne, ne_eq]
    omega
  have e1 := tagName_suffix_digits n₁ (natRepr k₁) hd₁
  have e2 := tagName_suffix_digits n₂ (natRepr k₂) hd₂
  unfold tagName at h
  rw [h] at e1
  have hrev : (natRepr k₁).reverse = (natRepr k₂).reverse := e1.symm.trans e2
  have hd : natRepr k₁ = natRepr k₂ := List.reverse_injective hrev
  have hk : k₁ = k₂ := natRepr_inj k₁ k₂ hd
  subst hk
  rw [hd] at h
  have h' := List.append_cancel_right h
  exact ⟨List.append_cancel_right h', rfl⟩

/-- Looking a key up after an update sees the new value, others unchanged. -/
theorem alookup_aupdate (n : S) (v : Nat) : ∀ (seen : List (S × Nat)) (m : S),
    alookup m (aupdate n v seen) = if n = m then some v else alookup m seen := by
  intro seen
  induction seen with
  | nil =>
    intro m
    simp [aupdate, alookup]
  | cons kv rest ih =>
    intro m
    obtain ⟨k, w⟩ := kv
    by_cases hkn : k = n
    · subst hkn
      simp only [aupdate, if_pos rfl, alookup]
      by_cases hm : k = m <;> simp [hm]
    · simp only [aupdate, if_neg hkn, alookup]
      by_cases hm : k = m
      · subst hm
        rw [if_pos rfl, if_neg (fun hcontra => hkn hcontra.symm), if_pos rfl]
      · rw [if_neg hm, ih m, if_neg hm]

/-- The worker of `make_unique` computes the specification fold. -/
theorem makeUniqueGo_eq_muSpec : ∀ (cols : List S) (seen : List (S × Nat)),
    makeUniqueGo cols seen = muSpec cols (priorOf seen) := by
  intro cols
  induction cols with
  | nil => intro seen; rfl
  | cons n rest ih =>
    intro seen
    simp only [makeUniqueGo, muSpec]
    cases hl : alookup n seen with
    | none =>
      have hp : priorOf seen n = 0 := by simp [priorOf, hl]
      rw [if_pos hp]
      refine congrArg (List.cons n) ?_
      rw [ih ((n, 0) :: seen)]
      have hfun : priorOf ((n, 0) :: seen) =
          fun m => if m = n then priorOf seen n + 1 else priorOf seen m := by
        funext m
        by_cases hmn : m = n
        · subst hmn
          simp [priorOf, alookup, hl, hp]
        · simp only [priorOf, alookup]
          rw [if_neg (fun hcontra => hmn hcontra.symm), if_neg hmn]
      rw [hfun]
    | some k =>
      have hp : priorOf seen n = k + 1 := by unfold priorOf; rw [hl]
      rw [hp, if_neg (by omega)]
      refine congrArg (List.cons (tagName n (k + 1))) ?_
      rw [ih (aupdate n (k + 1) seen)]
      have hfun : priorOf (aupdate n (k + 1) seen) =
          fun m => if m = n then k + 1 + 1 else priorOf seen m := by
        funext m
        unfold priorOf
        rw [alookup_aupdate]
        by_cases hmn : m = n
        · subst hmn
          simp
        · rw [if_neg (fun hcontra => hmn hcontra.symm), if_neg hmn]
      rw [hfun]

/-- Every output of the specification fold is a source name or a tag of one,
with a counter at least the prior of that name. -/
theorem muSpec_mem : ∀ (cols : List S) (p : S → Nat) (x : S), x ∈ muSpec cols p →
    ∃ m ∈ cols, ∃ t, p m ≤ t ∧ x = (if t = 0 then m else tagName m t) := by
  intro cols
  induction cols with
  | nil => intro p x hx; exact absurd hx (List.not_mem_nil x)
  | cons n rest ih =>
    intro p x hx
    rcases List.mem_cons.mp hx with hx | hx
    · exact ⟨n, List.mem_cons_self n rest, p n, Nat.le_refl _, hx⟩
    · obtain ⟨m, hm, t, hpt, hxe⟩ := ih _ x hx
      refine ⟨m, List.mem_cons_of_mem n hm, t, ?_, hxe⟩
      have hpt' : (if m = n then p n + 1 else p m) ≤ t := by simpa using hpt
      by_cases hmn : m = n
      · subst hmn
        rw [if_pos rfl] at hpt'
        omega
      · rwa [if_neg hmn] at hpt' 

/-- On separator-free names the specification fold emits pairwise distinct
names. -/
theorem muSpec_nodup : ∀ (cols : List S) (p : S → Nat),
    (∀ n ∈ cols, hasDU n = false) → (muSpec cols p).Nodup := by
  intro cols
  induction cols with
  | nil => intro p _; exact List.nodup_nil
  | cons n rest ih =>
    intro p hdu
    have hdn : hasDU n = false := hdu n (List.mem_cons_self n rest)
    simp only [muSpec, List.nodup_cons]
    constructor
    · intro hmem
      obtain ⟨m, hm, t, hpt, hx⟩ := muSpec_mem rest _ _ hmem
      have hdm : hasDU m = false := hdu m (List.mem_cons_of_mem n hm)
      by_cases hmn : m = n
      · subst hmn
        have hpt' : p m + 1 ≤ t := by simpa using hpt
        have ht0 : ¬ t = 0 := by omega
        by_cases hp0 : p m = 0
        · rw [if_pos hp0, if_neg ht0] at hx
          have htag := tagName_hasDU m t
          rw [← hx, hdm] at htag
          exact Bool.false_ne_true htag
        · rw [if_neg hp0, if_neg ht0] at hx
          have := (tagName_inj hx).2
          omega
      · have hpt' : p m ≤ t := by
          have hb : (if m = n then p n + 1 else p m) ≤ t := by simpa using hpt
          rwa [if_neg hmn] at hb
        by_cases hp0 : p n = 0 <;> by_cases ht0 : t = 0
        · rw [if_pos hp0, if_pos ht0] at hx
          exact hmn hx.symm
        · rw [if_pos hp0, if_neg ht0] at hx
          have htag := tagName_hasDU m t
          rw [← hx, hdn] at htag
          exact Bool.false_ne_true htag
        · rw [if_neg hp0, if_pos ht0] at hx
          have htag := tagName_hasDU n (p n)
          rw [hx, hdm] at htag
          exact Bool.false_ne_true htag
        · rw [if_neg hp0, if_neg ht0] at hx
          exact hmn (tagName_inj hx).1.symm
    · exact ih _ (fun x hx => hdu x (List.mem_cons_of_mem n hx))

/-- On a duplicate-free list with fresh state, `make_unique` changes nothing. -/
theorem makeUniqueGo_eq_self : ∀ (l : List S) (seen : List (S × Nat)), l.Nodup →
    (∀ n ∈ l, alookup n seen = none) → makeUniqueGo l seen = l := by
  intro l
  induction l with
  | nil => intro seen _ _; rfl
  | cons n rest ih =>
    intro seen hnd hnone
    simp only [makeUniqueGo, hnone n (List.mem_cons_self n rest)]
    refine congrArg (List.cons n) (ih ((n, 0) :: seen) (List.Nodup.of_cons hnd) ?_)
    intro m hm
    have hmn : m ≠ n := by
      intro hcontra
      subst hcontra
      exact (List.nodup_cons.mp hnd).1 hm
    have hne : ¬ n = m := fun hcontra => hmn hcontra.symm
    simp only [alookup]
    rw [if_neg hne]
    exact hnone m (List.mem_cons_of_mem n hm)

/-- C4 counterexample: the disambiguation suffix collides with names the
normalizer legitimately produces — `a__1` is normalization-stable, and on the
normalized input `[a, a__1, a]` the output of `make_unique` repeats `a__1`,
so it is not pairwise distinct. -/
theorem counterexample_C4 :
    normalize_header (strN "a") = strN "a" ∧
    normalize_header (strN "a__1") = strN "a__1" ∧
    make_unique [strN "a", strN "a__1", strN "a"] =
      [strN "a", strN "a__1", strN "a__1"] ∧
    ¬ (make_unique [strN "a", strN "a__1", strN "a"]).Nodup := by decide

/-- C4 (amended): for every input sequence of names in which no name contains
the `__` separator, the output of `make_unique` is pairwise distinct and
applying `make_unique` to its own output changes nothing; when a name does
contain the separator, distinctness can fail (see the counterexample). -/
theorem claim_C4 (cols : List S) (h : ∀ n ∈ cols, hasDU n = false) :
    (make_unique cols).Nodup ∧
    make_unique (make_unique cols) = make_unique cols := by
  have hnodup : (make_unique cols).Nodup := by
    unfold make_unique
    rw [makeUniqueGo_eq_muSpec]
    exact muSpec_nodup cols (priorOf []) h
  refine ⟨hnodup, ?_⟩
  exact makeUniqueGo_eq_self (make_unique cols) [] hnodup (fun n _ => rfl)

/-- C4 witness: the amended claim applied to a separator-free input with a
duplicate. -/
theorem claim_C4_witness :
    (make_unique [strN "a", strN "b", strN "a"]).Nodup ∧
    make_unique (make_unique [strN "a", strN "b", strN "a"]) =
      make_unique [strN "a", strN "b", strN "a"] :=
  claim_C4 [strN "a", strN "b", strN "a"] (by decide)

/-- 32 is the only whitespace code point at or above 32. -/
theorem isSpace_eq_false_of_ge (c : Nat) (h : 33 ≤ c) : isSpace c = false := by
  simp only [isSpace, Bool.or_eq_false_iff, beq_eq_false_iff_ne, ne_eq]
  omega

/-- Lower-casing is idempotent. -/
theorem lowerChar_idem (c : Nat) : lowerChar (lowerChar c) = lowerChar c := by
  by_cases h : 65 ≤ c ∧ c ≤ 90
  · have h1 : lowerChar c = c + 32 := by unfold lowerChar; rw [if_pos h]
    rw [h1]
    unfold lowerChar
    rw [if_neg (by omega)]
  · have h1 : lowerChar c = c := by unfold lowerChar; rw [if_neg h]
    rw [h1]
    exact h1

/-- Lower-casing does not change whitespace status. -/
theorem isSpace_lowerChar (c : Nat) : isSpace (lowerChar c) = isSpace c := by
  by_cases h : 65 ≤ c ∧ c ≤ 90
  · have h1 : lowerChar c = c + 32 := by unfold lowerChar; rw [if_pos h]
    rw [h1, isSpace_eq_false_of_ge (c + 32) (by omega), isSpace_eq_false_of_ge c (by omega)]
  · have h1 : lowerChar c = c := by unfold lowerChar; rw [if_neg h]
    rw [h1]

/-- Dash replacement does not change whitespace status. -/
theorem isSpace_dashToUnderscore (c : Nat) : isSpace (dashToUnderscore c) = isSpace c := by
  unfold dashToUnderscore
  split
  · rename_i h
    have : c = 45 := by simpa using h
    subst this
    decide
  · rfl

/-- After lower-casing and dash replacement a character is lower-case-stable
and dash-free. -/
theorem goodChar_maps (c : Nat) :
    lowerChar (dashToUnderscore (lowerChar c)) = dashToUnderscore (lowerChar c) ∧
    dashToUnderscore (lowerChar c) ≠ 45 := by
  unfold dashToUnderscore
  split
  · refine ⟨?_, by omega⟩
    unfold lowerChar
    rw [if_neg (by omega)]
  · rename_i h
    have h45 : lowerChar c ≠ 45 := by simpa using h
    exact ⟨lowerChar_idem c, h45⟩

/-- Mapping a pointwise-identity function changes nothing. -/
theorem map_id_of (f : Nat → Nat) : ∀ l : S, (∀ c ∈ l, f c = c) → l.map f = l := by
  intro l
  induction l with
  | nil => intro _; rfl
  | cons a r ih =>
    intro h
    rw [List.map_cons, h a (List.mem_cons_self a r),
      ih (fun c hc => h c (List.mem_cons_of_mem a hc))]

/-- `dropWhile` is the identity when the head already fails the predicate. -/
theorem dropWhile_eq_self_of (p : Nat → Bool) (l : S)
    (h : ∀ c ∈ l.head?, p c = false) : l.dropWhile p = l := by
  cases l with
  | nil => rfl
  | cons a r =>
    have ha : p a = false := h a rfl
    rw [List.dropWhile_cons, if_neg (by simp [ha])]

/-- A string with no edge whitespace strips to itself. -/
theorem strip_eq_self (l : S) (hh : headNotWs l) (hl : lastNotWs l) : pyStrip l = l := by
  unfold pyStrip
  rw [dropWhile_eq_self_of isSpace l hh]
  rw [dropWhile_eq_self_of isSpace l.reverse (by
    intro c hc
    rw [List.head?_reverse] at hc
    exact hl c hc)]
  exact List.reverse_reverse l

/-- The head surviving `dropWhile` fails the predicate. -/
theorem head_dropWhile_false (p : Nat → Bool) : ∀ l : S, ∀ c ∈ (l.dropWhile p).head?,
    p c = false := by
  intro l
  induction l with
  | nil => intro c hc; simp at hc
  | cons a r ih =>
    intro c hc
    rw [List.dropWhile_cons] at hc
    by_cases hp : p a = true
    · rw [if_pos hp] at hc
      exact ih c hc
    · rw [if_neg hp] at hc
      have : c = a := Eq.symm (by simpa using hc)
      subst this
      cases hpa : p c with
      | false => rfl
      | true => exact absurd hpa hp

/-- An element of `getLast?` is an element of the list. -/
theorem mem_of_getLast? {l : S} {x : Nat} (h : x ∈ l.getLast?) : x ∈ l := by
  obtain ⟨hne, he⟩ := List.mem_getLast?_eq_getLast h
  rw [he]
  exact List.getLast_mem hne

/-- Stripping leaves no leading whitespace. -/
theorem headNotWs_pyStrip (l : S) : headNotWs (pyStrip l) := by
  intro c hc
  unfold pyStrip at hc
  rw [List.head?_reverse] at hc
  have hbne : (l.dropWhile isSpace).reverse.dropWhile isSpace ≠ [] := by
    intro h0
    rw [h0] at hc
    simp at hc
  obtain ⟨t, ht⟩ := List.dropWhile_suffix (l := (l.dropWhile isSpace).reverse) isSpace
  have hgl : ((l.dropWhile isSpace).reverse.dropWhile isSpace).getLast? =
      (l.dropWhile isSpace).reverse.getLast? := by
    conv_rhs => rw [← ht]
    exact (List.getLast?_append_of_ne_nil t hbne).symm
  rw [hgl, List.getLast?_reverse] at hc
  exact head_dropWhile_false isSpace l c hc

/-- Stripping leaves no trailing whitespace. -/
theorem lastNotWs_pyStrip (l : S) : lastNotWs (pyStrip l) := by
  intro c hc
  unfold pyStrip at hc
  rw [List.getLast?_reverse] at hc
  exact head_dropWhile_false isSpace (l.dropWhile isSpace).reverse c hc

/-- Mapping a whitespace-status-preserving function keeps the head non-space. -/
theorem headNotWs_map (f : Nat → Nat) (hf : ∀ c, isSpace (f c) = isSpace c) (l : S)
    (h : headNotWs l) : headNotWs (l.map f) := by
  intro c hc
  rw [List.head?_map] at hc
  cases hh : l.head? with
  | none => rw [hh] at hc; simp at hc
  | some d =>
    rw [hh] at hc
    have : c = f d := Eq.symm (by simpa using hc)
    subst this
    rw [hf d]
    exact h d (by rw [hh]; rfl)

/-- Mapping a whitespace-status-preserving function keeps the tail non-space. -/
theorem lastNotWs_map (f : Nat → Nat) (hf : ∀ c, isSpace (f c) = isSpace c) (l : S)
    (h : lastNotWs l) : lastNotWs (l.map f) := by
  intro c hc
  rw [List.getLast?_map] at hc
  cases hh : l.getLast? with
  | none => rw [hh] at hc; simp at hc
  | some d =>
    rw [hh] at hc
    have : c = f d := Eq.symm (by simpa using hc)
    subst this
    rw [hf d]
    exact h d (by rw [hh]; rfl)

/-- Inside a whitespace run the space collapser just skips whitespace. -/
theorem scGo_true_dropWhile : ∀ l : S, scGo true l = scGo true (l.dropWhile isSpace) := by
  intro l
  induction l with
  | nil => rfl
  | cons c rest ih =>
    by_cases hc : isSpace c = true
    · rw [List.dropWhile_cons, if_pos hc]
      have he : scGo true (c :: rest) = scGo true rest := by simp [scGo, hc]
      rw [he]
      exact ih
    · rw [List.dropWhile_cons, if_neg (by simp [hc])]

/-- On a non-space head both collapser states emit the head unchanged. -/
theorem scGo_head_eq (b : Bool) (c : Nat) (rest : S) (h : isSpace c = false) :
    scGo b (c :: rest) = c :: scGo false rest := by
  simp [scGo, h]

/-- The head of the in-run collapse is the first non-space character. -/
theorem scGo_true_head? (l : S) : (scGo true l).head? = (l.dropWhile isSpace).head? := by
  rw [scGo_true_dropWhile]
  cases hd : l.dropWhile isSpace with
  | nil => rfl
  | cons d r =>
    have hdns : isSpace d = false := by
      have := head_dropWhile_false isSpace l
      rw [hd] at this
      exact this d rfl
    rw [scGo_head_eq true d r hdns]
    rfl

/-- The in-run collapse never starts with whitespace. -/
theorem scGo_true_headNotWs (l : S) : ∀ c ∈ (scGo true l).head?, isSpace c = false := by
  intro c hc
  rw [scGo_true_head?] at hc
  exact head_dropWhile_false isSpace l c hc

/-- Characters of the collapsed string: emitted spaces or kept non-spaces. -/
theorem scGo_mem : ∀ (l : S) (b : Bool) (x : Nat), x ∈ scGo b l →
    x = 32 ∨ (x ∈ l ∧ isSpace x = false) := by
  intro l
  induction l with
  | nil => intro b x hx; simp [scGo] at hx
  | cons c rest ih =>
    intro b x hx
    cases hsp : isSpace c with
    | true =>
      cases b with
      | true =>
        have he : scGo true (c :: rest) = scGo true rest := by simp [scGo, hsp]
        rw [he] at hx
        rcases ih true x hx with h | h
        · exact Or.inl h
        · exact Or.inr ⟨List.mem_cons_of_mem c h.1, h.2⟩
      | false =>
        have he : scGo false (c :: rest) = 32 :: scGo true rest := by simp [scGo, hsp]
        rw [he] at hx
        rcases List.mem_cons.mp hx with h | h
        · exact Or.inl h
        · rcases ih true x h with h2 | h2
          · exact Or.inl h2
          · exact Or.inr ⟨List.mem_cons_of_mem c h2.1, h2.2⟩
    | false =>
      rw [scGo_head_eq b c rest hsp] at hx
      rcases List.mem_cons.mp hx with h | h
      · subst h
        exact Or.inr ⟨List.mem_cons_self x rest, hsp⟩
      · rcases ih false x h with h2 | h2
        · exact Or.inl h2
        · exact Or.inr ⟨List.mem_cons_of_mem c h2.1, h2.2⟩

/-- The collapsed string has no two adjacent whitespace characters. -/
theorem chain'_Pws_scGo : ∀ (l : S) (b : Bool), List.Chain' Pws (scGo b l) := by
  intro l
  induction l with
  | nil => intro b; simp [scGo]
  | cons c rest ih =>
    intro b
    cases hsp : isSpace c with
    | true =>
      cases b with
      | true =>
        have he : scGo true (c :: rest) = scGo true rest := by simp [scGo, hsp]
        rw [he]
        exact ih true
      | false =>
        have he : scGo false (c :: rest) = 32 :: scGo true rest := by simp [scGo, hsp]
        rw [he, List.chain'_cons']
        refine ⟨?_, ih true⟩
        intro h hh
        have hns := scGo_true_headNotWs rest h hh
        intro hcon
        rw [hns] at hcon
        exact Bool.false_ne_true hcon.2
    | false =>
      rw [scGo_head_eq b c rest hsp, List.chain'_cons']
      refine ⟨?_, ih false⟩
      intro h _
      intro hcon
      rw [hsp] at hcon
      exact Bool.false_ne_true hcon.1

/-- Under a whitespace head of a pipe-safe string, the first non-space
character cannot be a pipe. -/
theorem chain'_Ppipe_dropWhile_head : ∀ (rest : S) (c : Nat),
    List.Chain' Ppipe (c :: rest) → isSpace c = true →
    ∀ h ∈ (rest.dropWhile isSpace).head?, h ≠ 124 := by
  intro rest
  induction rest with
  | nil => intro c _ _ h hh; simp at hh
  | cons d r ih =>
    intro c hch hc h hh
    rw [List.dropWhile_cons] at hh
    by_cases hd : isSpace d = true
    · rw [if_pos hd] at hh
      exact ih d (List.chain'_cons'.mp hch).2 hd h hh
    · rw [if_neg hd] at hh
      have : h = d := Eq.symm (by simpa using hh)
      subst this
      have hpair := (List.chain'_cons'.mp hch).1 h rfl
      intro h124
      exact hpair.1 ⟨hc, h124⟩

/-- Space collapsing preserves pipe safety. -/
theorem chain'_Ppipe_scGo : ∀ (l : S), List.Chain' Ppipe l → ∀ b,
    List.Chain' Ppipe (scGo b l) := by
  intro l
  induction l with
  | nil => intro _ b; simp [scGo]
  | cons c rest ih =>
    intro hch b
    have htail : List.Chain' Ppipe rest := (List.chain'_cons'.mp hch).2
    cases hsp : isSpace c with
    | true =>
      cases b with
      | true =>
        have he : scGo true (c :: rest) = scGo true rest := by simp [scGo, hsp]
        rw [he]
        exact ih htail true
      | false =>
        have he : scGo false (c :: rest) = 32 :: scGo true rest := by simp [scGo, hsp]
        rw [he, List.chain'_cons']
        refine ⟨?_, ih htail true⟩
        intro h hh
        rw [scGo_true_head?] at hh
        have h124 : h ≠ 124 := chain'_Ppipe_dropWhile_head rest c hch hsp h hh
        exact ⟨fun hcon => h124 hcon.2, fun hcon => by omega⟩
    | false =>
      rw [scGo_head_eq b c rest hsp, List.chain'_cons']
      refine ⟨?_, ih htail false⟩
      intro h hh
      cases rest with
      | nil => simp [scGo] at hh
      | cons d r =>
        have hpair := (List.chain'_cons'.mp hch).1 d rfl
        cases hsd : isSpace d with
        | true =>
          have hh' : h = 32 := Eq.symm (by
            have he2 : scGo false (d :: r) = 32 :: scGo true r := by simp [scGo, hsd]
            rw [he2] at hh
            simpa using hh)
          subst hh'
          constructor
          · intro hcon
            rw [hsp] at hcon
            exact Bool.false_ne_true hcon.1
          · intro hcon
            exact hpair.2 ⟨hcon.1, hsd⟩
        | false =>
          have hh' : h = d := Eq.symm (by
            rw [scGo_head_eq false d r hsd] at hh
            simpa using hh)
          subst hh'
          exact hpair

/-- The collapse of a non-empty string is non-empty. -/
theorem scGo_false_ne_nil (l : S) (h : l ≠ []) : scGo false l ≠ [] := by
  cases l with
  | nil => exact absurd rfl h
  | cons c rest =>
    cases hsp : isSpace c with
    | true => simp [scGo, hsp]
    | false => simp [scGo, hsp]

/-- With a non-space last character, the in-run collapse is non-empty. -/
theorem scGo_true_ne_nil (l : S) (hne : l ≠ []) (hl : lastNotWs l) : scGo true l ≠ [] := by
  rw [scGo_true_dropWhile]
  have hdw : l.dropWhile isSpace ≠ [] := by
    intro h0
    rw [List.dropWhile_eq_nil_iff] at h0
    have hlast := hl (l.getLast hne) (by rw [List.getLast?_eq_getLast_of_ne_nil hne]; rfl)
    rw [h0 (l.getLast hne) (List.getLast_mem hne)] at hlast
    simp at hlast
  cases hd : l.dropWhile isSpace with
  | nil => exact absurd hd hdw
  | cons d r =>
    have hdns : isSpace d = false := by
      have := head_dropWhile_false isSpace l
      rw [hd] at this
      exact this d rfl
    rw [scGo_head_eq true d r hdns]
    simp

/-- Space collapsing never introduces trailing whitespace. -/
theorem scGo_lastNotWs : ∀ (l : S) (b : Bool), lastNotWs l → lastNotWs (scGo b l) := by
  intro l
  induction l with
  | nil => intro b _ c hc; simp [scGo] at hc
  | cons c rest ih =>
    intro b hl
    cases rest with
    | nil =>
      have hc : isSpace c = false := hl c rfl
      rw [scGo_head_eq b c [] hc]
      intro x hx
      have : x = c := Eq.symm (by simpa [scGo] using hx)
      subst this
      exact hc
    | cons d r =>
      have hlrest : lastNotWs (d :: r) := by
        intro x hx
        exact hl x (by rw [List.getLast?_cons_cons]; exact hx)
      cases hsp : isSpace c with
      | true =>
        cases b with
        | true =>
          have he : scGo true (c :: d :: r) = scGo true (d :: r) := by simp [scGo, hsp]
          rw [he]
          exact ih true hlrest
        | false =>
          have he : scGo false (c :: d :: r) = 32 :: scGo true (d :: r) := by simp [scGo, hsp]
          rw [he]
          have hX := ih true hlrest
          have hXne : scGo true (d :: r) ≠ [] := scGo_true_ne_nil (d :: r) (by simp) hlrest
          intro x hx
          cases hXl : scGo true (d :: r) with
          | nil => exact absurd hXl hXne
          | cons e s =>
            rw [hXl, List.getLast?_cons_cons] at hx
            rw [hXl] at hX
            exact hX x hx
      | false =>
        rw [scGo_head_eq b c (d :: r) hsp]
        have hX := ih false hlrest
        have hXne : scGo false (d :: r) ≠ [] := scGo_false_ne_nil (d :: r) (by simp)
        intro x hx
        cases hXl : scGo false (d :: r) with
        | nil => exact absurd hXl hXne
        | cons e s =>
          rw [hXl, List.getLast?_cons_cons] at hx
          rw [hXl] at hX
          exact hX x hx

/-- Space collapsing never introduces leading whitespace. -/
theorem scGo_headNotWs (l : S) (h : headNotWs l) : headNotWs (scGo false l) := by
  cases l with
  | nil => intro c hc; simp [scGo] at hc
  | cons c rest =>
    have hc : isSpace c = false := h c rfl
    rw [scGo_head_eq false c rest hc]
    intro x hx
    have : x = c := Eq.symm (by simpa using hx)
    subst this
    exact hc

/-- A string whose whitespace is single plain spaces collapses to itself. -/
theorem scGo_eq_self : ∀ l : S, (∀ c ∈ l, isSpace c = true → c = 32) →
    List.Chain' Pws l → scGo false l = l := by
  intro l
  induction l with
  | nil => intro _ _; rfl
  | cons c rest ih =>
    intro hws hch
    have htail : List.Chain' Pws rest := (List.chain'_cons'.mp hch).2
    cases hsp : isSpace c with
    | false =>
      rw [scGo_head_eq false c rest hsp,
        ih (fun x hx h32 => hws x (List.mem_cons_of_mem c hx) h32) htail]
    | true =>
      have hc32 : c = 32 := hws c (List.mem_cons_self c rest) hsp
      have he : scGo false (c :: rest) = 32 :: scGo true rest := by simp [scGo, hsp]
      rw [he]
      have hresthead : ∀ h ∈ rest.head?, isSpace h = false := by
        intro h hh
        have hpair := (List.chain'_cons'.mp hch).1 h hh
        cases hsph : isSpace h with
        | false => rfl
        | true => exact absurd ⟨hsp, hsph⟩ hpair
      have htf : scGo true rest = scGo false rest := by
        cases rest with
        | nil => rfl
        | cons d r =>
          have hd : isSpace d = false := hresthead d rfl
          rw [scGo_head_eq true d r hd, scGo_head_eq false d r hd]
      rw [htf, ih (fun x hx h32 => hws x (List.mem_cons_of_mem c hx) h32) htail, hc32]

/-- After a pipe the collapser never emits a leading whitespace character. -/
theorem pcGo_true_headNotWs : ∀ l : S, ∀ c ∈ (pcGo true [] l).head?, isSpace c = false := by
  intro l
  induction l with
  | nil => intro c hc; simp [pcGo] at hc
  | cons a rest ih =>
    intro c hc
    by_cases ha : a = 124
    · subst ha
      have he : pcGo true [] (124 :: rest) = 124 :: pcGo true [] rest := by simp [pcGo]
      rw [he] at hc
      have : c = 124 := Eq.symm (by simpa using hc)
      subst this
      decide
    · cases hsp : isSpace a with
      | true =>
        have he : pcGo true [] (a :: rest) = pcGo true [] rest := by simp [pcGo, ha, hsp]
        rw [he] at hc
        exact ih c hc
      | false =>
        have he : pcGo true [] (a :: rest) = a :: pcGo false [] rest := by
          simp [pcGo, ha, hsp]
        rw [he] at hc
        have : c = a := Eq.symm (by simpa using hc)
        subst this
        exact hsp

/-- The pipe collapse only deletes characters. -/
theorem pcGo_mem : ∀ (l : S) (b : Bool) (pend : S) (x : Nat),
    x ∈ pcGo b pend l → x ∈ pend ∨ x ∈ l := by
  intro l
  induction l with
  | nil => intro b pend x hx; exact Or.inl (by simpa [pcGo] using hx)
  | cons a rest ih =>
    intro b pend x hx
    by_cases ha : a = 124
    · subst ha
      have he : pcGo b pend (124 :: rest) = 124 :: pcGo true [] rest := by simp [pcGo]
      rw [he] at hx
      rcases List.mem_cons.mp hx with h | h
      · exact Or.inr (by rw [h]; exact List.mem_cons_self _ _)
      · rcases ih true [] x h with h2 | h2
        · simp at h2
        · exact Or.inr (List.mem_cons_of_mem _ h2)
    · cases hsp : isSpace a with
      | true =>
        cases b with
        | true =>
          have he : pcGo true pend (a :: rest) = pcGo true [] rest := by simp [pcGo, ha, hsp]
          rw [he] at hx
          rcases ih true [] x hx with h2 | h2
          · simp at h2
          · exact Or.inr (List.mem_cons_of_mem _ h2)
        | false =>
          have he : pcGo false pend (a :: rest) = pcGo false (pend ++ [a]) rest := by
            simp [pcGo, ha, hsp]
          rw [he] at hx
          rcases ih false (pend ++ [a]) x hx with h2 | h2
          · rw [List.mem_append] at h2
            rcases h2 with h3 | h3
            · exact Or.inl h3
            · have : x = a := by simpa using h3
              exact Or.inr (by rw [this]; exact List.mem_cons_self _ _)
          · exact Or.inr (List.mem_cons_of_mem _ h2)
      | false =>
        have he : pcGo b pend (a :: rest) = pend ++ (a :: pcGo false [] rest) := by
          simp [pcGo, ha, hsp]
        rw [he, List.mem_append] at hx
        rcases hx with h | h
        · exact Or.inl h
        · rcases List.mem_cons.mp h with h2 | h2
          · exact Or.inr (by rw [h2]; exact List.mem_cons_self _ _)
          · rcases ih false [] x h2 with h3 | h3
            · simp at h3
            · exact Or.inr (List.mem_cons_of_mem _ h3)

/-- An all-whitespace string is pipe-safe. -/
theorem chain'_Ppipe_of_allWs : ∀ m : S, (∀ x ∈ m, isSpace x = true) →
    List.Chain' Ppipe m := by
  intro m
  induction m with
  | nil => intro _; simp
  | cons a r ih =>
    intro h
    rw [List.chain'_cons']
    refine ⟨?_, ih (fun x hx => h x (List.mem_cons_of_mem a hx))⟩
    intro y hy
    have hys : isSpace y = true :=
      h y (List.mem_cons_of_mem a (List.mem_of_mem_head? hy))
    have hy124 : y ≠ 124 := by
      intro h124
      rw [h124] at hys
      exact absurd hys (by decide)
    have has : isSpace a = true := h a (List.mem_cons_self a r)
    have ha124 : a ≠ 124 := by
      intro h124
      rw [h124] at has
      exact absurd has (by decide)
    exact ⟨fun hcon => hy124 hcon.2, fun hcon => ha124 hcon.1⟩

/-- The pipe collapse is pipe-safe: no whitespace remains against a pipe. -/
theorem chain'_Ppipe_pcGo : ∀ (l : S) (b : Bool) (pend : S),
    (∀ x ∈ pend, isSpace x = true) → List.Chain' Ppipe (pcGo b pend l) := by
  intro l
  induction l with
  | nil => intro b pend hp; exact chain'_Ppipe_of_allWs pend hp
  | cons a rest ih =>
    intro b pend hp
    by_cases ha : a = 124
    · subst ha
      have he : pcGo b pend (124 :: rest) = 124 :: pcGo true [] rest := by simp [pcGo]
      rw [he, List.chain'_cons']
      refine ⟨?_, ih true [] (by simp)⟩
      intro h hh
      have hns := pcGo_true_headNotWs rest h hh
      exact ⟨fun hcon => absurd hcon.1 (by decide), fun hcon => absurd hcon.2 (by simp [hns])⟩
    · cases hsp : isSpace a with
      | true =>
        cases b with
        | true =>
          have he : pcGo true pend (a :: rest) = pcGo true [] rest := by simp [pcGo, ha, hsp]
          rw [he]
          exact ih true [] (by simp)
        | false =>
          have he : pcGo false pend (a :: rest) = pcGo false (pend ++ [a]) rest := by
            simp [pcGo, ha, hsp]
          rw [he]
          refine ih false (pend ++ [a]) ?_
          intro x hx
          rw [List.mem_append] at hx
          rcases hx with h | h
          · exact hp x h
          · have : x = a := by simpa using h
            rw [this]
            exact hsp
      | false =>
        have he : pcGo b pend (a :: rest) = pend ++ (a :: pcGo false [] rest) := by
          simp [pcGo, ha, hsp]
        rw [he, List.chain'_append]
        refine ⟨chain'_Ppipe_of_allWs pend hp, ?_, ?_⟩
        · rw [List.chain'_cons']
          refine ⟨?_, ih false [] (by simp)⟩
          intro h _
          exact ⟨fun hcon => absurd hcon.1 (by simp [hsp]), fun hcon => ha hcon.1⟩
        · intro x hx y hy
          have hxs : isSpace x = true := hp x (mem_of_getLast? hx)
          have hyc : y = a := Eq.symm (by simpa using hy)
          rw [hyc]
          refine ⟨fun hcon => ha hcon.2, fun hcon => ?_⟩
          rw [hcon.1] at hxs
          exact absurd hxs (by decide)

/-- The pipe collapse never introduces leading whitespace. -/
theorem pcGo_headNotWs (l : S) (h : headNotWs l) : headNotWs (pcGo false [] l) := by
  cases l with
  | nil => intro c hc; simp [pcGo] at hc
  | cons a rest =>
    have ha : isSpace a = false := h a rfl
    by_cases h124 : a = 124
    · subst h124
      have he : pcGo false [] (124 :: rest) = 124 :: pcGo true [] rest := by simp [pcGo]
      rw [he]
      intro c hc
      have : c = 124 := Eq.symm (by simpa using hc)
      rw [this]
      decide
    · have he : pcGo false [] (a :: rest) = a :: pcGo false [] rest := by
        simp [pcGo, h124, ha]
      rw [he]
      intro c hc
      have : c = a := Eq.symm (by simpa using hc)
      rw [this]
      exact ha

/-- The pipe collapse never introduces trailing whitespace. -/
theorem pcGo_lastNotWs : ∀ (l : S) (b : Bool) (pend : S), lastNotWs l → l ≠ [] →
    lastNotWs (pcGo b pend l) := by
  intro l
  induction l with
  | nil => intro b pend _ hne; exact absurd rfl hne
  | cons a rest ih =>
    intro b pend hl hne
    cases rest with
    | nil =>
      have ha : isSpace a = false := hl a rfl
      by_cases h124 : a = 124
      · subst h124
        have he : pcGo b pend ([124] : S) = [124] := by simp [pcGo]
        rw [he]
        intro c hc
        have : c = 124 := Eq.symm (by simpa using hc)
        rw [this]
        decide
      · have he : pcGo b pend [a] = pend ++ [a] := by
          cases b with
          | true => simp [pcGo, h124, ha]
          | false => simp [pcGo, h124, ha]
        rw [he]
        intro c hc
        rw [List.getLast?_append_of_ne_nil pend (by simp)] at hc
        have : c = a := Eq.symm (by simpa using hc)
        rw [this]
        exact ha
    | cons d r =>
      have hlrest : lastNotWs (d :: r) := by
        intro x hx
        exact hl x (by rw [List.getLast?_cons_cons]; exact hx)
      by_cases h124 : a = 124
      · subst h124
        have he : pcGo b pend (124 :: d :: r) = 124 :: pcGo true [] (d :: r) := by simp [pcGo]
        rw [he]
        have hX := ih true [] hlrest (by simp)
        intro c hc
        cases hXl : pcGo true [] (d :: r) with
        | nil =>
          rw [hXl] at hc
          have : c = 124 := Eq.symm (by simpa using hc)
          rw [this]
          decide
        | cons e s =>
          rw [hXl, List.getLast?_cons_cons] at hc
          rw [hXl] at hX
          exact hX c hc
      · cases hsp : isSpace a with
        | true =>
          cases b with
          | true =>
            have he : pcGo true pend (a :: d :: r) = pcGo true [] (d :: r) := by
              simp [pcGo, h124, hsp]
            rw [he]
            exact ih true [] hlrest (by simp)
          | false =>
            have he : pcGo false pend (a :: d :: r) = pcGo false (pend ++ [a]) (d :: r) := by
              simp [pcGo, h124, hsp]
            rw [he]
            exact ih false (pend ++ [a]) hlrest (by simp)
        | false =>
          have he : pcGo b pend (a :: d :: r) = pend ++ (a :: pcGo false [] (d :: r)) := by
            simp [pcGo, h124, hsp]
          rw [he]
          have hX := ih false [] hlrest (by simp)
          intro c hc
          rw [List.getLast?_append_of_ne_nil pend (by simp)] at hc
          cases hXl : pcGo false [] (d :: r) with
          | nil =>
            rw [hXl] at hc
            have : c = a := Eq.symm (by simpa using hc)
            rw [this]
            exact hsp
          | cons e s =>
            rw [hXl, List.getLast?_cons_cons] at hc
            rw [hXl] at hX
            exact hX c hc

/-- When the head is not whitespace, the after-pipe state is irrelevant. -/
theorem pcGo_true_false (l : S) (h : ∀ c ∈ l.head?, isSpace c = false) :
    pcGo true [] l = pcGo false [] l := by
  cases l with
  | nil => rfl
  | cons a rest =>
    by_cases h124 : a = 124
    · subst h124
      simp [pcGo]
    · have ha : isSpace a = false := h a rfl
      simp [pcGo, h124, ha]

/-- A pipe-safe string with no double whitespace survives the pipe collapse
unchanged (with the pending run prepended). -/
theorem pcGo_eq_self_aux : ∀ l : S, List.Chain' Ppipe l → List.Chain' Pws l →
    ∀ pend : S, (∀ x ∈ pend, isSpace x = true) →
    (pend ≠ [] → ∀ h ∈ l.head?, isSpace h = false ∧ h ≠ 124) →
    pcGo false pend l = pend ++ l := by
  intro l
  induction l with
  | nil => intro _ _ pend _ _; simp [pcGo]
  | cons a rest ih =>
    intro hPp hPw pend hpws hbound
    have htailPp : List.Chain' Ppipe rest := (List.chain'_cons'.mp hPp).2
    have htailPw : List.Chain' Pws rest := (List.chain'_cons'.mp hPw).2
    by_cases h124 : a = 124
    · subst h124
      have hpend : pend = [] := by
        by_contra hpne
        exact (hbound hpne 124 rfl).2 rfl
      subst hpend
      have he : pcGo false ([] : S) (124 :: rest) = 124 :: pcGo true [] rest := by simp [pcGo]
      rw [he]
      have hresthead : ∀ h ∈ rest.head?, isSpace h = false := by
        intro h hh
        have hpair := (List.chain'_cons'.mp hPp).1 h hh
        cases hs : isSpace h with
        | false => rfl
        | true => exact absurd ⟨rfl, hs⟩ hpair.2
      rw [pcGo_true_false rest hresthead,
        ih htailPp htailPw [] (by simp) (fun h0 => absurd rfl h0)]
      simp
    · cases hsp : isSpace a with
      | true =>
        have hpend : pend = [] := by
          by_contra hpne
          have hcon := (hbound hpne a rfl).1
          rw [hsp] at hcon
          simp at hcon
        subst hpend
        have he : pcGo false ([] : S) (a :: rest) = pcGo false [a] rest := by
          simp [pcGo, h124, hsp]
        rw [he]
        rw [ih htailPp htailPw [a]
          (by intro x hx; have : x = a := (by simpa using hx); rw [this]; exact hsp) ?_]
        · simp
        · intro _ h hh
          have hpairP := (List.chain'_cons'.mp hPp).1 h hh
          have hpairW := (List.chain'_cons'.mp hPw).1 h hh
          constructor
          · cases hs : isSpace h with
            | false => rfl
            | true => exact absurd ⟨hsp, hs⟩ hpairW
          · intro hcon
            exact hpairP.1 ⟨hsp, hcon⟩
      | false =>
        have he : pcGo false pend (a :: rest) = pend ++ (a :: pcGo false [] rest) := by
          simp [pcGo, h124, hsp]
        rw [he, ih htailPp htailPw [] (by simp) (fun h0 => absurd rfl h0)]
        simp

/-- A pipe-safe string with no double whitespace is a fixed point of the
pipe collapse. -/
theorem pipeCollapse_eq_self (l : S) (h1 : List.Chain' Ppipe l)
    (h2 : List.Chain' Pws l) : pipeCollapse l = l := by
  unfold pipeCollapse
  rw [pcGo_eq_self_aux l h1 h2 [] (by simp) (fun h0 => absurd rfl h0)]
  simp

/-- A clean stage input yields a fully normalized result after the two
whitespace collapses. -/
theorem NF_stage (m : S) (hgood : ∀ c ∈ m, lowerChar c = c ∧ c ≠ 45)
    (hh : headNotWs m) (hl : lastNotWs m) :
    NormalizedForm (spaceCollapse (pipeCollapse m)) := by
  have hpPp : List.Chain' Ppipe (pipeCollapse m) := chain'_Ppipe_pcGo m false [] (by simp)
  have hpmem : ∀ x ∈ pipeCollapse m, x ∈ m := by
    intro x hx
    rcases pcGo_mem m false [] x hx with h | h
    · simp at h
    · exact h
  have hph : headNotWs (pipeCollapse m) := pcGo_headNotWs m hh
  have hpl : lastNotWs (pipeCollapse m) := by
    by_cases hme : m = []
    · subst hme
      intro c hc
      simp [pipeCollapse, pcGo] at hc
    · exact pcGo_lastNotWs m false [] hl hme
  unfold spaceCollapse
  refine ⟨?_, ?_, ?_, ?_, ?_, ?_⟩
  · intro c hc
    rcases scGo_mem (pipeCollapse m) false c hc with h | h
    · rw [h]
      exact ⟨by decide, by decide⟩
    · exact hgood c (hpmem c h.1)
  · intro c hc hcs
    rcases scGo_mem (pipeCollapse m) false c hc with h | h
    · exact h
    · rw [h.2] at hcs
      exact absurd hcs Bool.false_ne_true
  · exact chain'_Ppipe_scGo (pipeCollapse m) hpPp false
  · exact chain'_Pws_scGo (pipeCollapse m) false
  · exact scGo_headNotWs (pipeCollapse m) hph
  · exact scGo_lastNotWs (pipeCollapse m) false hpl

/-- Every normalizer output is in normalized form. -/
theorem NF_normalize (s : S) : NormalizedForm (normalize_header s) := by
  unfold normalize_header
  apply NF_stage
  · intro c hc
    rw [List.mem_map] at hc
    obtain ⟨d, hd, rfl⟩ := hc
    rw [List.mem_map] at hd
    obtain ⟨e, _, rfl⟩ := hd
    exact goodChar_maps e
  · exact headNotWs_map dashToUnderscore isSpace_dashToUnderscore _
      (headNotWs_map lowerChar isSpace_lowerChar _ (headNotWs_pyStrip s))
  · exact lastNotWs_map dashToUnderscore isSpace_dashToUnderscore _
      (lastNotWs_map lowerChar isSpace_lowerChar _ (lastNotWs_pyStrip s))

/-- A string in normalized form is a fixed point of the normalizer. -/
theorem normalize_eq_self (l : S) (h : NormalizedForm l) : normalize_header l = l := by
  obtain ⟨hgood, hws32, hPp, hPw, hh, hl⟩ := h
  unfold normalize_header
  rw [strip_eq_self l hh hl]
  rw [map_id_of lowerChar l (fun c hc => (hgood c hc).1)]
  rw [map_id_of dashToUnderscore l (fun c hc => by
    unfold dashToUnderscore
    rw [if_neg (by simp [(hgood c hc).2])])]
  rw [pipeCollapse_eq_self l hPp hPw]
  exact scGo_eq_self l hws32 hPw

/-- C9: the header normalizer is idempotent — normalizing an already
normalized header string changes nothing. -/
theorem claim_C9 (s : S) : normalize_header (normalize_header s) = normalize_header s :=
  normalize_eq_self (normalize_header s) (NF_normalize s)

end Healthcare
